import Mathlib

/-!
Verification of the entity-resolution and merge engine in
`schema_design/unified_Personnel.py` and `schema_design/unified_Companies.py`.

Python values are shallowly embedded as the inductive `JVal` (a JSON-like
tagged union); Python dicts become association lists with unique keys in
insertion order; pure Python functions become Lean functions translated
line by line from the source.
-/

set_option maxRecDepth 10000

/-- A Python/JSON value: None, bool, int, str, list or dict.
Dicts are association lists in insertion order (Python dicts preserve
insertion order and have unique keys). Floats do not occur in the code
under study. -/
inductive JVal where
  | vnull : JVal
  | vbool : Bool → JVal
  | vint : Int → JVal
  | vstr : String → JVal
  | vlist : List JVal → JVal
  | vdict : List (String × JVal) → JVal

/-- A Python dict, used for records, mappings and configs. -/
abbrev PyDict := List (String × JVal)

/-- Python truthiness: `bool(v)`. -/
def pyTruthy : JVal → Bool
  | JVal.vnull => false
  | JVal.vbool b => b
  | JVal.vint n => n != 0
  | JVal.vstr s => s != ""
  | JVal.vlist l => !l.isEmpty
  | JVal.vdict d => !d.isEmpty

mutual
/-- Python `repr(v)`, used for elements inside the `str` of a list. Only
the None/bool/int/str cases are exercised by the source pipeline. -/
def pyRepr : JVal → String
  | JVal.vnull => "None"
  | JVal.vbool b => if b then "True" else "False"
  | JVal.vint n => toString n
  | JVal.vstr s => "\x27" ++ s ++ "\x27"
  | JVal.vlist l => "[" ++ ", ".intercalate (pyReprList l) ++ "]"
  | JVal.vdict d => "dict(" ++ ", ".intercalate (pyReprDict d) ++ ")"

def pyReprList : List JVal → List String
  | [] => []
  | v :: vs => pyRepr v :: pyReprList vs

def pyReprDict : List (String × JVal) → List String
  | [] => []
  | (k, v) :: rest => ("\x27" ++ k ++ "\x27: " ++ pyRepr v) :: pyReprDict rest
end

/-- Python `str(v)`. Agrees with `repr` except on strings (no quotes). -/
def pyStr : JVal → String
  | JVal.vstr s => s
  | v => pyRepr v

mutual
/-- Python `==` on embedded values: numeric cross-equality between bool
and int (`True == 1`), structural equality elsewhere (dicts keywise by
first binding; the source only ever compares scalars and lists). -/
def pyEq : JVal → JVal → Bool
  | JVal.vnull, JVal.vnull => true
  | JVal.vbool a, JVal.vbool b => a == b
  | JVal.vbool a, JVal.vint n => (if a then (1 : Int) else 0) == n
  | JVal.vint n, JVal.vbool a => n == (if a then (1 : Int) else 0)
  | JVal.vint a, JVal.vint b => a == b
  | JVal.vstr a, JVal.vstr b => a == b
  | JVal.vlist a, JVal.vlist b => pyEqList a b
  | JVal.vdict a, JVal.vdict b => pyEqDict a b
  | _, _ => false
termination_by structural a b => a

def pyEqList : List JVal → List JVal → Bool
  | [], [] => true
  | a :: as_, b :: bs => pyEq a b && pyEqList as_ bs
  | _, _ => false
termination_by structural l1 l2 => l1

def pyEqDict : List (String × JVal) → List (String × JVal) → Bool
  | [], [] => true
  | (_, v) :: rest, (_, w) :: rest2 => pyEq v w && pyEqDict rest rest2
  | _, _ => false
termination_by structural d1 d2 => d1
end

/-- Python dict lookup returning an `Option` (keys unique). -/
def dictFind : PyDict → String → Option JVal
  | [], _ => none
  | (k', v) :: rest, k => if k' = k then some v else dictFind rest k

/-- Python `d.get(k)`: the value, or None when absent. -/
def dictGet (d : PyDict) (k : String) : JVal :=
  (dictFind d k).getD JVal.vnull

/-- Python `d[k] = v`: update the existing binding in place, else append
(insertion-order semantics of Python dicts). -/
def dictSet : PyDict → String → JVal → PyDict
  | [], k, v => [(k, v)]
  | (k', v') :: rest, k, v =>
    if k' = k then (k, v) :: rest else (k', v') :: dictSet rest k v

/-- `simple_person_match` from `unified_Personnel.py` (lines 289-307):
match only by `rolodex_id`, compared after `str()` conversion; different
non-null ids never match; anything else (missing or falsy ids) never
matches either. -/
def simple_person_match (rec1 rec2 : PyDict) : Bool :=
  let rolodex_id1 := dictGet rec1 "rolodex_id"
  let rolodex_id2 := dictGet rec2 "rolodex_id"
  if pyTruthy rolodex_id1 && pyTruthy rolodex_id2
      && (pyStr rolodex_id1 != pyStr rolodex_id2) then false
  else if pyTruthy rolodex_id1 && pyTruthy rolodex_id2
      && (pyStr rolodex_id1 == pyStr rolodex_id2) then true
  else false

/-- The record at index `i` of the candidate list (out-of-range gives the
empty record, which can never match anything). -/
def recAt (records : List PyDict) (i : Nat) : PyDict := records.getD i []

/-- The pairwise match evaluated on candidate indices: the edge relation
of the match graph built by `find_matches` (lines 381-397). -/
def matchStep (records : List PyDict) (i j : Nat) : Bool :=
  simple_person_match (recAt records i) (recAt records j)

/-- One saturation step of the reachable set: all nodes below `n` that are
already in the set or adjacent to a member. -/
def expandStep (records : List PyDict) (n : Nat) (s : List Nat) : List Nat :=
  (List.range n).filter
    (fun j => s.contains j || s.any (fun i => matchStep records i j))

/-- The connected component of node `i` in the match graph, computed by
iterating the saturation step `records.length` times (the executable
rendering of the connected components that networkx computes). -/
def reachSet (records : List PyDict) (i : Nat) : List Nat :=
  Nat.iterate (expandStep records records.length) records.length [i]

/-- `find_matches` (lines 381-397) as identity groups of candidate
indices: one group per connected component, listed by smallest member
(networkx leaves component order unspecified; membership is what the
source consumes). -/
def findMatchesIdx (records : List PyDict) : List (List Nat) :=
  ((List.range records.length).filter
    (fun i => (reachSet records i).all (fun j => decide (i ≤ j)))).map
    (fun i => reachSet records i)

/-- `find_matches` at the record level: each index group mapped back to
its records. -/
def find_matches (records : List PyDict) : List (List PyDict) :=
  (findMatchesIdx records).map (fun g => g.map (recAt records))

/-- Two candidates are connected by a chain of pairwise matches. -/
def Chained (records : List PyDict) (i j : Nat) : Prop :=
  Relation.ReflTransGen (fun a b => matchStep records a b = true) i j

/-- Python regex whitespace class over the characters the source handles. -/
def pyIsSpace (c : Char) : Bool :=
  c == ' ' || c == '\t' || c == '\n' || c == '\x0d' || c == '\x0b' || c == '\x0c'

/-- Python `str.strip()` on a character list. -/
def pyStripChars (l : List Char) : List Char :=
  ((l.dropWhile pyIsSpace).reverse.dropWhile pyIsSpace).reverse

/-- Python `str.strip()`. -/
def pyStrip (s : String) : String := String.mk (pyStripChars s.toList)

/-- Worker for `pyWords`: `acc` holds the reversed current word. -/
def pyWordsGo : List Char → List Char → List (List Char)
  | [], acc => if acc.isEmpty then [] else [acc.reverse]
  | c :: cs, acc =>
    if pyIsSpace c then
      if acc.isEmpty then pyWordsGo cs [] else acc.reverse :: pyWordsGo cs []
    else pyWordsGo cs (c :: acc)

/-- Python `str.split()` with no arguments: maximal runs of
non-whitespace characters. -/
def pyWords (l : List Char) : List (List Char) := pyWordsGo l []

/-- Python `" ".join(ws)` on character-list words. -/
def spaceJoin : List (List Char) → List Char
  | [] => []
  | [w] => w
  | w :: ws => w ++ ' ' :: spaceJoin ws

/-- `re.sub(r"\s+", " ", x).strip()`, equivalently
`" ".join(x.split())`: collapse whitespace runs and trim the ends. -/
def collapseWS (l : List Char) : List Char := spaceJoin (pyWords l)

/-- Fuel-driven worker for `subScan`; each step consumes at least one
character, so fuel equal to the input length always suffices. -/
def subScanF (m : List Char → Option Nat) : Nat → List Char → List Char
  | _, [] => []
  | 0, l => l
  | fuel + 1, c :: cs =>
    match m (c :: cs) with
    | some (n + 1) => subScanF m fuel ((c :: cs).drop (n + 1))
    | _ => c :: subScanF m fuel cs

/-- One left-to-right pass of `re.sub(pat, "", s)` for a pattern matcher
that reports how many characters the match at the current position
consumes (the patterns used here never match the empty string). -/
def subScan (m : List Char → Option Nat) (l : List Char) : List Char :=
  subScanF m l.length l

/-- Length consumed by a trailing `\.?` (one dot if present). -/
def dotLen (l : List Char) : Nat := if l.head? = some '.' then 1 else 0

/-- Matcher for `(ltd|limited)\.?` at the head of the input. -/
def matchSfx2 (l : List Char) : Option Nat :=
  if "ltd".toList.isPrefixOf l then some (3 + dotLen (l.drop 3))
  else if "limited".toList.isPrefixOf l then some (7 + dotLen (l.drop 7))
  else none

/-- Matcher for `\s*(pvt|private)?\s*(ltd|limited)\.?` at the head of the
input, with the alternation order Python uses. -/
def matchPvtLtd (l : List Char) : Option Nat :=
  let ws := (l.takeWhile pyIsSpace).length
  let r := l.drop ws
  let tryPfx := fun (pfx : List Char) =>
    if pfx.isPrefixOf r then
      let r2 := r.drop pfx.length
      let ws2 := (r2.takeWhile pyIsSpace).length
      (matchSfx2 (r2.drop ws2)).map (fun n => ws + pfx.length + ws2 + n)
    else none
  ((tryPfx "pvt".toList).orElse fun _ =>
    (tryPfx "private".toList).orElse fun _ => tryPfx [])

/-- Matcher for `\s*tok\.?` at the head of the input. -/
def matchTokDot (tok : List Char) (l : List Char) : Option Nat :=
  let ws := (l.takeWhile pyIsSpace).length
  let r := l.drop ws
  if tok.isPrefixOf r then some (ws + tok.length + dotLen (r.drop tok.length))
  else none

/-- Matcher for `\s*tok` at the head of the input. -/
def matchTok (tok : List Char) (l : List Char) : Option Nat :=
  let ws := (l.takeWhile pyIsSpace).length
  let r := l.drop ws
  if tok.isPrefixOf r then some (ws + tok.length) else none

/-- Character class kept by `re.sub(r"[^a-z0-9\s]", "", name)`. -/
def keepAlnumSpace (c : Char) : Bool :=
  (decide ('a' ≤ c) && decide (c ≤ 'z')) || c.isDigit || pyIsSpace c

/-- `normalize_company_name` from `unified_Companies.py` (lines 44-55):
lower-case, collapse whitespace, strip legal-entity suffix tokens, strip
punctuation, collapse again. Used only for equality comparison. -/
def normalize_company_name (name : String) : String :=
  if name = "" then "" else
  let l := collapseWS (name.toList.map Char.toLower)
  let l := subScan matchPvtLtd l
  let l := subScan (matchTokDot "llc".toList) l
  let l := subScan (matchTokDot "inc".toList) l
  let l := subScan (matchTokDot "corp".toList) l
  let l := subScan (matchTok "group".toList) l
  let l := l.filter keepAlnumSpace
  String.mk (collapseWS l)

/-- `exact_normalized_company_match` (lines 57-63). The source calls
`normalize_company_name` on the raw values, which are strings in the
pipeline (a non-string would raise in Python; embedded via `pyStr`). -/
def exact_normalized_company_match (rec1 rec2 : PyDict) : Bool :=
  let name1 := dictGet rec1 "company_name"
  let name2 := dictGet rec2 "company_name"
  if !pyTruthy name1 || !pyTruthy name2 then false
  else normalize_company_name (pyStr name1) == normalize_company_name (pyStr name2)

/-- True exactly when the value is Python `None`. -/
def isNull : JVal → Bool
  | JVal.vnull => true
  | _ => false

namespace Companies

/-- `find_matches` from `unified_Companies.py` (lines 80-92): greedy
first-match alignment of `list1` against `list2`; every element of
`list2` is consumed by at most one element of `list1`, and each `list1`
element takes the first unused match and stops (the `break`). -/
def find_matches (list1 list2 : List PyDict)
    (match_func : PyDict → PyDict → Bool) : List (Nat × Nat) :=
  (list1.enum.foldl (fun (st : List (Nat × Nat) × List Nat) pr =>
    match (List.range list2.length).find?
        (fun j => !st.2.contains j && match_func pr.2 (list2.getD j [])) with
    | some j => (st.1 ++ [(pr.1, j)], st.2 ++ [j])
    | none => st) ([], [])).1

/-- `merge_records` from `unified_Companies.py` (lines 94-108): start from
a copy of `rec1`, concatenate the two `data_source` labels with `+`
(no sorting, no de-duplication), copy truthy id-key values from `rec2`,
then fill any None fields of the copy from non-None fields of `rec2`.
A record without a `data_source` key would raise KeyError in Python;
`dictGet` renders it as None here. This is the id-key loop (lines
99-101). -/
def idKeyStep (rec2 : PyDict) (m : PyDict) (key : String) : PyDict :=
  if pyTruthy (dictGet rec2 key) then dictSet m key (dictGet rec2 key) else m

/-- The scalar fill loop of the companies `merge_records` (lines
103-107): identity fields and id keys are skipped, None fields of the
copy are filled from non-None fields of `rec2`. -/
def fillStep (id_keys : List String) (m : PyDict) (fv : String × JVal) : PyDict :=
  if fv.1 = "company_id" ∨ fv.1 = "data_source" ∨ id_keys.contains fv.1 then m
  else if isNull (dictGet m fv.1) && !isNull fv.2 then dictSet m fv.1 fv.2
  else m

/-- `merge_records` from `unified_Companies.py` (lines 94-108),
continued: see the doc comment above. -/
def merge_records (rec1 rec2 : PyDict) (id_keys : List String) : PyDict :=
  let merged := dictSet rec1 "data_source"
    (JVal.vstr (pyStr (dictGet rec1 "data_source") ++ "+"
      ++ pyStr (dictGet rec2 "data_source")))
  let merged := id_keys.foldl (idKeyStep rec2) merged
  rec2.foldl (fillStep id_keys) merged

/-- One step of `chain_merge` (lines 140-168): align `cur` against `next`
greedily, merge the aligned pairs in place, then append the unmatched
elements of `next`. -/
def chainStep (id_keys : List String) (cur next : List PyDict) : List PyDict :=
  let ms := find_matches cur next exact_normalized_company_match
  let upd := (List.range cur.length).map (fun i =>
    match ms.find? (fun p => p.1 == i) with
    | some p => merge_records (cur.getD i []) (next.getD p.2 []) id_keys
    | none => cur.getD i [])
  let matchedNext := (List.range cur.length).filterMap
    (fun i => (ms.find? (fun p => p.1 == i)).map (·.2))
  upd ++ (List.range next.length).filterMap
    (fun j => if matchedNext.contains j then none else some (next.getD j []))

/-- `chain_merge` (lines 140-168): left fold of `chainStep` over the
per-source lists of one source-type group. -/
def chain_merge (group_lists : List (String × List PyDict))
    (id_keys : List String) : List PyDict :=
  match group_lists with
  | [] => []
  | g :: rest => rest.foldl (fun cur g2 => chainStep id_keys cur g2.2) g.2

end Companies

/-- Contiguous-substring test on character lists. -/
def isInfixB : List Char → List Char → Bool
  | needle, [] => needle.isEmpty
  | needle, c :: cs => needle.isPrefixOf (c :: cs) || isInfixB needle cs

/-- Python `needle in hay` on strings. -/
def pyInStr (needle hay : String) : Bool :=
  isInfixB needle.toList hay.toList

/-- Python `s.split(sep)` on character lists, fuel-driven (each step
consumes at least one character, so fuel equal to the length suffices). -/
def splitOnLF (sep : List Char) : Nat → List Char → List (List Char)
  | _, [] => [[]]
  | 0, l => [l]
  | fuel + 1, c :: cs =>
    if !sep.isEmpty && sep.isPrefixOf (c :: cs) then
      [] :: splitOnLF sep fuel ((c :: cs).drop sep.length)
    else match splitOnLF sep fuel cs with
      | t :: ts => (c :: t) :: ts
      | [] => [[c]]

/-- Python `s.split(sep)` (all occurrences, left to right). -/
def splitOnL (sep l : List Char) : List (List Char) := splitOnLF sep l.length l

/-- Python `s.split(sep, 1)`: the part before the first occurrence and
the rest. -/
def splitFirstL (sep l : List Char) : List Char × List Char :=
  match splitOnL sep l with
  | [] => (l, [])
  | [x] => (x, [])
  | x :: rest => (x, List.intercalate sep rest)

/-- The `data_source` label of a record as a string (the pipeline always
stores a string; Python would raise on anything else). -/
def dsString (r : PyDict) : String :=
  match dictGet r "data_source" with
  | JVal.vstr s => s
  | _ => ""

/-- Whether a record carries a string `data_source` value (always true
in the pipeline). -/
def isStrDS (r : PyDict) : Bool :=
  match dictFind r "data_source" with
  | some (JVal.vstr _) => true
  | _ => false

/-- The elements of a list value rendered with `str`, for observing
merged array fields ([] when the value is not a list). -/
def strListOf : JVal → List String
  | JVal.vlist l => l.map pyStr
  | _ => []

/-- Lexicographic order by code point on character lists: the order
Python `sorted` uses on strings. -/
def strLtB : List Char → List Char → Bool
  | [], [] => false
  | [], _ :: _ => true
  | _ :: _, [] => false
  | a :: as_, b :: bs =>
    if a.toNat < b.toNat then true
    else if b.toNat < a.toNat then false
    else strLtB as_ bs

/-- Insert into an ascending duplicate-free list, keeping it so. -/
def insortUnique (s : String) : List String → List String
  | [] => [s]
  | t :: ts =>
    if s == t then t :: ts
    else if strLtB s.toList t.toList then s :: t :: ts
    else t :: insortUnique s ts

/-- `sorted(set(l))` for strings: the ascending duplicate-free
enumeration of the elements. -/
def sortedDedup (l : List String) : List String := l.foldr insortUnique []

/-- Python `"+".join(l)`. -/
def joinPlus : List String → String
  | [] => ""
  | h :: t => t.foldl (fun acc x => acc ++ "+" ++ x) h

namespace Personnel

/-- `record_priority` inside `merge_records` (lines 315-320): substring
tests on the `data_source` label; `record.get("data_source", "")`
defaults to the empty string. -/
def record_priority (record : PyDict) : Nat :=
  let source := match dictGet record "data_source" with
    | JVal.vstr s => s
    | _ => ""
  if pyInStr "Rolodex" source then 3
  else if pyInStr "ColourcoatsBigin" source then 2
  else if pyInStr "MetaliaBigin" source then 1
  else 0

/-- Stable insertion step for the descending priority sort. -/
def insertByPriority (a : PyDict) : List PyDict → List PyDict
  | [] => [a]
  | b :: t =>
    if record_priority b ≤ record_priority a then a :: b :: t
    else b :: insertByPriority a t

/-- `sorted(records, key=record_priority, reverse=True)`: a stable sort,
descending by priority, ties in original order (Python sorts are
stable, also with `reverse=True`). -/
def sortByPriority : List PyDict → List PyDict
  | [] => []
  | a :: t => insertByPriority a (sortByPriority t)

/-- `mappings.get(field, dict()).get("type", "string")` (lines 335-336).
A non-dict mapping entry would raise AttributeError in Python and cannot
occur with a well-formed mapper; it is rendered as the default here. -/
def fieldType (mappings : PyDict) (field : String) : JVal :=
  match dictFind mappings field with
  | some (JVal.vdict d) => (dictFind d "type").getD (JVal.vstr "string")
  | _ => JVal.vstr "string"

/-- The body of the field loop of `merge_records` (lines 331-348) for one
`(field, value)` item of a lower-priority record: identity fields are
skipped; an array-typed field is replaced when the canonical value is
missing or falsy and otherwise extended with the incoming elements not
already present (`combined if combined else []` is the same list either
way); a scalar field is filled only when the canonical value is None and
the incoming one is not. -/
def mergeField (mappings : PyDict) (merged : PyDict) (field : String)
    (value : JVal) : PyDict :=
  if field = "person_id" ∨ field = "data_source" then merged
  else if pyEq (fieldType mappings field) (JVal.vstr "array") then
    match dictFind merged field with
    | none => dictSet merged field value
    | some cur =>
      if !pyTruthy cur then dictSet merged field value
      else if pyTruthy value then
        let existing := match cur with
          | JVal.vlist l => l
          | _ => []
        let new_vals := match value with
          | JVal.vlist l => l
          | _ => []
        let combined := existing ++
          new_vals.filter (fun v => !(existing.any (fun e => pyEq v e)))
        dictSet merged field (JVal.vlist combined)
      else merged
  else
    if isNull (dictGet merged field) && !isNull value then
      dictSet merged field value
    else merged

/-- `for field, value in record.items()` of one lower-priority record. -/
def mergeInto (mappings : PyDict) (merged : PyDict) (record : PyDict) : PyDict :=
  record.foldl (fun m fv => mergeField mappings m fv.1 fv.2) merged

/-- `merge_records` from `unified_Personnel.py` (lines 309-350): a
singleton group is returned as a copy; otherwise members are stably
sorted by descending source priority, the copy of the top one gets
`data_source` set to the `+`-joined ascending enumeration of the distinct
member labels (`"+".join(sorted(set(...)))`), and every other member is
folded in field by field. An empty group would raise IndexError in
Python and never occurs. -/
def merge_records (records : List PyDict) (mappings : PyDict) : PyDict :=
  if records.length = 1 then recAt records 0
  else
    let sorted_records := sortByPriority records
    let merged := recAt sorted_records 0
    let merged := dictSet merged "data_source"
      (JVal.vstr (joinPlus (sortedDedup (records.map dsString))))
    (sorted_records.drop 1).foldl (mergeInto mappings) merged

end Personnel

/-- The dedup key of `merge_company_relationships` (line 360): the tuple
`(rel["person_id"], rel.get("company_id"), rel.get("company_name"))`.
A missing `person_id` would raise KeyError in Python; it is None here. -/
def relKey (rel : PyDict) : JVal × JVal × JVal :=
  (dictGet rel "person_id", dictGet rel "company_id", dictGet rel "company_name")

/-- Python `==` on the key tuples. -/
def relKeyEq (a b : JVal × JVal × JVal) : Bool :=
  pyEq a.1 b.1 && pyEq a.2.1 b.2.1 && pyEq a.2.2 b.2.2

/-- The in-place metadata/data_source update applied to the first record
seen with a key when a duplicate arrives (lines 365-377): a Rolodex
duplicate donates its truthy metadata fields to the missing ones of the
kept record, and the `data_source` label becomes the sorted `+`-join of
the union of both label sets. -/
def relFillStep (rel : PyDict) (e : PyDict) (field : String) : PyDict :=
  if pyTruthy (dictGet rel field) && !pyTruthy (dictGet e field) then
    dictSet e field (dictGet rel field)
  else e

/-- The in-place metadata/data_source update applied to the first record
seen with a key when a duplicate arrives (lines 365-377), continued:
see the doc comment above `relFillStep`. -/
def mergeRelInto (existing rel : PyDict) : PyDict :=
  let existing :=
    if pyEq (dictGet rel "data_source") (JVal.vstr "Rolodex") then
      ["is_active", "start_date", "title_at_company"].foldl (relFillStep rel) existing
    else existing
  let sources := splitOnL ['+'] (dsString existing).toList ++ [(dsString rel).toList]
  dictSet existing "data_source"
    (JVal.vstr (joinPlus (sortedDedup (sources.map String.mk))))

/-- Replace the first record whose key equals `k` by its update. -/
def updateFirstByKey (k : JVal × JVal × JVal) (rel : PyDict) :
    List PyDict → List PyDict
  | [] => []
  | e :: rest =>
    if relKeyEq (relKey e) k then mergeRelInto e rel :: rest
    else e :: updateFirstByKey k rel rest

/-- `merge_company_relationships` from `unified_Personnel.py` (lines
352-379): one output record per distinct key tuple, in first-seen order;
duplicates are folded into the record already kept for their key (the
`seen` dict holds the same object that sits in `merged`, so the in-place
update lands in the output list). -/
def relStep (merged : List PyDict) (rel : PyDict) : List PyDict :=
  if merged.any (fun e => relKeyEq (relKey e) (relKey rel)) then
    updateFirstByKey (relKey rel) rel merged
  else merged ++ [rel]

/-- `merge_company_relationships`, continued: the left fold of `relStep`
over the input relationships starting from the empty output. -/
def merge_company_relationships (relationships : List PyDict) : List PyDict :=
  relationships.foldl relStep []

/-- Python `int(s)` for a digit string. -/
def digitsToNat (l : List Char) : Nat :=
  l.foldl (fun acc c => acc * 10 + (c.toNat - 48)) 0

/-- Python `s.isdigit()` over the ASCII digits used by the mapper. -/
def isDigits (l : List Char) : Bool := !l.isEmpty && l.all Char.isDigit

/-- Result of the regex `\(', '\)\[\s*(\d+)\s*\]` applied with
`re.match` to the text after `.split`: the token index, or none when the
operator text is malformed (`re.match` anchors at the start only and
ignores trailing text). -/
def parseSplitOp (op : List Char) : Option Nat :=
  if "(\x27, \x27)[".toList.isPrefixOf op then
    let rest := (op.drop 7).dropWhile pyIsSpace
    let digits := rest.takeWhile Char.isDigit
    let rest2 := (rest.dropWhile Char.isDigit).dropWhile pyIsSpace
    if !digits.isEmpty && rest2.head? == some ']' then some (digitsToNat digits)
    else none
  else none

/-- `current not in [None, "", []]` (line 104): the three values treated
as absent by the extractor. -/
def isNoneEmpty : JVal → Bool
  | JVal.vnull => true
  | JVal.vstr s => s == ""
  | JVal.vlist l => l.isEmpty
  | _ => false

/-- The base-path walk of the wildcard branch (lines 42-49): dotted key
traversal that skips empty segments and requires a dict at every step. -/
def navBaseWild : JVal → List (List Char) → Option JVal
  | cur, [] => some cur
  | cur, part :: rest =>
    if part.isEmpty then navBaseWild cur rest
    else match cur with
      | JVal.vdict d =>
        match dictFind d (String.mk part) with
        | some v => navBaseWild v rest
        | none => none
      | _ => none

/-- Strip the trailing `]` characters of an index segment
(`index_str.rstrip(']')`, line 84). -/
def rstripBrackets (l : List Char) : List Char :=
  (l.reverse.dropWhile (fun c => c == ']')).reverse

/-- The standard path navigation of `safe_get_value` (lines 79-102):
dotted keys with optional single `[N]` index segments; any shape
mismatch or out-of-range index is an early None. -/
def navStd : JVal → List (List Char) → Option JVal
  | cur, [] => some cur
  | cur, part :: rest =>
    if part.contains '[' && part.getLast? == some ']' then
      let pr := splitFirstL ['['] part
      let index_str := rstripBrackets pr.2
      let afterBase : Option JVal :=
        if !pr.1.isEmpty then
          match cur with
          | JVal.vdict d => dictFind d (String.mk pr.1)
          | _ => none
        else some cur
      match afterBase with
      | none => none
      | some c =>
        if isDigits index_str then
          let index := digitsToNat index_str
          match c with
          | JVal.vlist l =>
            if index < l.length then navStd (l.getD index JVal.vnull) rest
            else none
          | _ => none
        else none
    else
      match cur with
      | JVal.vdict d =>
        match dictFind d (String.mk part) with
        | some v => navStd v rest
        | none => none
      | _ => none

/-- The standard-navigation tail of `safe_get_value`: walk the dotted
path, then map an empty result (None, empty string, empty list) to None
(lines 79-104). -/
def stdNavResult (record : JVal) (path : List Char) : JVal :=
  match navStd record (splitOnL ['.'] path) with
  | none => JVal.vnull
  | some cur => if isNoneEmpty cur then JVal.vnull else cur

/-- Fuel-driven worker for `safe_get_value`; recursive calls always use
a strictly shorter path, so fuel above the path length never runs out. -/
def safe_get_value_fuel : Nat → JVal → List Char → JVal
  | 0, _, _ => JVal.vnull
  | fuel + 1, record, path =>
    if path.isEmpty || !pyTruthy record then JVal.vnull
    else if isInfixB "[*]".toList path then
      let parts := splitOnL "[*]".toList path
      match navBaseWild record (splitOnL ['.'] (parts.getD 0 [])) with
      | none => JVal.vnull
      | some cur =>
        match cur with
        | JVal.vlist items =>
          let field_path := (parts.getD 1 []).dropWhile (fun c => c == '.')
          let results := items.filterMap (fun item =>
            let val := if !field_path.isEmpty
              then safe_get_value_fuel fuel item field_path else item
            if pyTruthy val then some val else none)
          if results.isEmpty then JVal.vnull else JVal.vlist results
        | _ => JVal.vnull
    else if isInfixB ".split".toList path then
      let pr := splitFirstL ".split".toList path
      let value := safe_get_value_fuel fuel record pr.1
      if isNull value then JVal.vnull
      else match parseSplitOp pr.2 with
        | some index =>
          let parts := splitOnL ", ".toList (pyStr value).toList
          if index < parts.length then JVal.vstr (String.mk (parts.getD index []))
          else JVal.vnull
        | none => stdNavResult record path
    else stdNavResult record path

/-- `safe_get_value` from `unified_Personnel.py` (lines 30-106): the
generic path extractor. The record argument is a `JVal` because the
wildcard branch re-enters it on arbitrary list elements. The `try`
wrapper of the source never fires: every branch already returns None on
a structural mismatch. -/
def safe_get_value (record : JVal) (path : String) : JVal :=
  safe_get_value_fuel (path.length + 1) record path.toList

/-- Cut the input at the first occurrence of the delimiter:
`title.split(delim)[0]`. -/
def truncAt (delim : List Char) : List Char → List Char
  | [] => []
  | c :: cs => if delim.isPrefixOf (c :: cs) then [] else c :: truncAt delim cs

/-- Matcher for `\([^)]*\)` at the head of the input: an opening paren,
everything up to the first closing paren, and that closing paren. -/
def matchParen (l : List Char) : Option Nat :=
  match l with
  | [] => none
  | c :: cs =>
    if c = '(' then
      if cs.contains ')' then
        some (1 + (cs.takeWhile (fun x => x != ')')).length + 1)
      else none
    else none

/-- Matcher for `\[[^\]]*\]` at the head of the input. -/
def matchBracket (l : List Char) : Option Nat :=
  match l with
  | [] => none
  | c :: cs =>
    if c = '[' then
      if cs.contains ']' then
        some (1 + (cs.takeWhile (fun x => x != ']')).length + 1)
      else none
    else none

/-- `clean_job_title` from `unified_Personnel.py` (lines 216-231):
strip, truncate at `" at "`, `" |"`, `"|"`, remove parenthesized and
bracketed spans, collapse whitespace; empty results become None. The
source returns None for non-string input; the embedding takes strings. -/
def clean_job_title (title : String) : Option String :=
  let t := pyStripChars title.toList
  if t.isEmpty then none
  else
    let t := truncAt " at ".toList t
    let t := truncAt " |".toList t
    let t := truncAt "|".toList t
    let t := subScan matchParen t
    let t := subScan matchBracket t
    let t := collapseWS t
    if t.isEmpty then none else some (String.mk t)

/-- Python `s.lower()`. -/
def pyLower (s : String) : String := String.mk (s.toList.map Char.toLower)

/-- The interface of the external `phonenumbers` library as the source
uses it: a region-aware parser that can raise NumberParseException (the
error case), a global validity judgment, and E.164 formatting. -/
structure PhoneLib (P : Type) where
  parse : String → String → Except Unit P
  is_valid_number : P → Bool
  format_E164 : P → String

/-- The `country_code_map` literal of `normalize_phone` (lines 115-118). -/
def country_code_map : List (String × String) :=
  [("india", "IN"), ("united states", "US"), ("united kingdom", "GB"),
   ("canada", "CA"), ("australia", "AU")]

/-- `normalize_phone` from `unified_Personnel.py` (lines 108-128),
parameterized by the library: falsy or blank input is None; the country
name (when truthy) selects a region code through the fixed lookup,
defaulting to the configured default region; a parse failure is caught
and an invalid number rejected, both yielding None. A non-string
`default_country` config value is rendered with `str` here (Python
passes the raw object; the pipeline always stores a string). -/
def normalize_phone {P : Type} (lib : PhoneLib P) (phone : String)
    (country : Option String) (config : Option PyDict) : Option String :=
  if phone = "" then none
  else
    let phone := pyStrip phone
    if phone = "" then none
    else
      let default_country := match config with
        | some c =>
          match dictFind c "default_country" with
          | some (JVal.vstr s) => s
          | some v => pyStr v
          | none => "IN"
        | none => "IN"
      let region_code := match country with
        | some cstr =>
          if cstr = "" then default_country
          else ((country_code_map.find?
            (fun p => p.1 == pyLower (pyStrip cstr))).map (·.2)).getD default_country
        | none => default_country
      match lib.parse phone region_code with
      | Except.error _ => none
      | Except.ok parsed =>
        if lib.is_valid_number parsed then some (lib.format_E164 parsed)
        else none

/-- Modelled from the spec: the behavior of the external `phonenumbers`
library (not part of this repository) on the round-trip examples the
spec fixes — parsing "9876543210" with region "IN" yields a valid
number whose E.164 form is "+919876543210", and parsing "not-a-number"
raises NumberParseException (the error case here). -/
def specPhoneLib : PhoneLib String where
  parse := fun phone region =>
    if phone = "9876543210" && region = "IN" then Except.ok "+919876543210"
    else Except.error ()
  is_valid_number := fun _ => true
  format_E164 := fun p => p

/-- Outcome of opening and parsing a JSON configuration file. -/
inductive LoadOutcome (α : Type) where
  | present : α → LoadOutcome α
  | missing : LoadOutcome α
  | malformed : LoadOutcome α

/-- The built-in fallback configuration hard-coded in `load_config`
(lines 17-28). -/
def default_name_config : PyDict :=
  [("default_country", JVal.vstr "IN"),
   ("title_prefixes", JVal.vdict
     [("architect", JVal.vdict
        [("patterns", JVal.vlist [JVal.vstr "ar", JVal.vstr "ar.",
          JVal.vstr "arc", JVal.vstr "arc.", JVal.vstr "arch",
          JVal.vstr "arch.", JVal.vstr "architect"]),
         ("title", JVal.vstr "Architect")]),
      ("interior_designer", JVal.vdict
        [("patterns", JVal.vlist [JVal.vstr "id", JVal.vstr "id.",
          JVal.vstr "interior", JVal.vstr "designer"]),
         ("title", JVal.vstr "Interior Designer")]),
      ("client", JVal.vdict
        [("patterns", JVal.vlist [JVal.vstr "cl", JVal.vstr "cl.",
          JVal.vstr "client"]),
         ("title", JVal.vstr "Client")]),
      ("doctor", JVal.vdict
        [("patterns", JVal.vlist [JVal.vstr "dr", JVal.vstr "dr.",
          JVal.vstr "doctor"]),
         ("title", JVal.vstr "Doctor")]),
      ("chartered_accountant", JVal.vdict
        [("patterns", JVal.vlist [JVal.vstr "ca", JVal.vstr "ca.",
          JVal.vstr "chartered accountant"]),
         ("title", JVal.vstr "Chartered Accountant")])]),
   ("honorifics_to_remove", JVal.vlist [JVal.vstr "mr", JVal.vstr "mr.",
     JVal.vstr "mrs", JVal.vstr "mrs.", JVal.vstr "ms", JVal.vstr "ms."]),
   ("company_indicators", JVal.vlist [JVal.vstr "ltd", JVal.vstr "pvt",
     JVal.vstr "llc", JVal.vstr "inc", JVal.vstr "corp"])]

/-- `load_config` (lines 11-28): only FileNotFoundError is caught (the
missing file), yielding the built-in default; a malformed file raises
json.JSONDecodeError, which is not caught and propagates. -/
def load_config : LoadOutcome PyDict → Except Unit PyDict
  | LoadOutcome.present c => Except.ok c
  | LoadOutcome.missing => Except.ok default_name_config
  | LoadOutcome.malformed => Except.error ()

/-- `load_mapper` (lines 407-415): `except Exception` catches both the
missing and the malformed file, returning an empty mapping. -/
def load_mapper : LoadOutcome PyDict → PyDict
  | LoadOutcome.present m => m
  | _ => []

/-- `mapper_data.get("Unified_Personnel", dict()).get("columns", dict())`
from `main` (line 520). -/
def personnelMappings (mapper : PyDict) : PyDict :=
  match dictFind mapper "Unified_Personnel" with
  | some (JVal.vdict d) =>
    match dictFind d "columns" with
    | some (JVal.vdict c) => c
    | _ => []
  | _ => []

/-- Whether `main` (lines 510-560) reaches record processing: it returns
before processing when the mapper failed to load or carries no personnel
mappings, and an uncaught exception from `load_config` aborts it; the
result of `load_config` itself is never checked. -/
def mainProcessesRecords (configFile mapperFile : LoadOutcome PyDict) : Bool :=
  match load_config configFile with
  | Except.error _ => false
  | Except.ok _ =>
    !(load_mapper mapperFile).isEmpty
      && !(personnelMappings (load_mapper mapperFile)).isEmpty

namespace Personnel

/-- The effect of the field loop of `merge_records` on the binding of a
single field: one lower-priority record contributes its value for the
field (`none` when the record lacks the key), and the canonical binding
is updated by the same policy `mergeField` applies. Used to state that
the merge treats fields independently. -/
def fieldStep (mappings : PyDict) (field : String) (cur : Option JVal) :
    Option JVal → Option JVal
  | none => cur
  | some value =>
    if field = "person_id" ∨ field = "data_source" then cur
    else if pyEq (fieldType mappings field) (JVal.vstr "array") then
      match cur with
      | none => some value
      | some c =>
        if !pyTruthy c then some value
        else if pyTruthy value then
          let existing := match c with
            | JVal.vlist l => l
            | _ => []
          let new_vals := match value with
            | JVal.vlist l => l
            | _ => []
          some (JVal.vlist (existing ++
            new_vals.filter (fun v => !(existing.any (fun e => pyEq v e)))))
        else cur
    else
      match cur with
      | none => if !isNull value then some value else none
      | some c => if isNull c && !isNull value then some value else some c

end Personnel

/-- A mapper fragment with the shape `main` expects, used to exhibit a
run that proceeds although the name-processing configuration is absent. -/
def sampleMapper : PyDict :=
  [("Unified_Personnel", JVal.vdict
    [("columns", JVal.vdict
      [("person_id", JVal.vdict [("type", JVal.vstr "string")])])])]

/-- Two personnel candidates with identical names and emails but
different trusted identifiers. -/
def personShahA : PyDict :=
  [("rolodex_id", JVal.vint 1), ("full_name", JVal.vstr "Rohan Shah"),
   ("email", JVal.vstr "rohan@x.com"), ("data_source", JVal.vstr "Rolodex")]

/-- Same name and email as `personShahA`, different trusted identifier. -/
def personShahB : PyDict :=
  [("rolodex_id", JVal.vint 2), ("full_name", JVal.vstr "Rohan Shah"),
   ("email", JVal.vstr "rohan@x.com"), ("data_source", JVal.vstr "ColourcoatsBigin")]

/-- A candidate carrying the identifier of `personShahA` as a string. -/
def personShahC : PyDict :=
  [("rolodex_id", JVal.vstr "1"), ("full_name", JVal.vstr "R Shah"),
   ("data_source", JVal.vstr "MetaliaBigin")]

/-- A mapper fragment marking `all_emails` array-typed and `city` scalar. -/
def emailMapper : PyDict :=
  [("all_emails", JVal.vdict [("type", JVal.vstr "array")]),
   ("city", JVal.vdict [("type", JVal.vstr "string")])]

/-- Top-priority member: one email, no city. -/
def personEmailsA : PyDict :=
  [("person_id", JVal.vstr "p1"), ("data_source", JVal.vstr "Rolodex"),
   ("all_emails", JVal.vlist [JVal.vstr "a@x.com"]), ("city", JVal.vnull)]

/-- Lower-priority member whose email list repeats one address. -/
def personEmailsB : PyDict :=
  [("person_id", JVal.vstr "p2"), ("data_source", JVal.vstr "MetaliaBigin"),
   ("all_emails", JVal.vlist [JVal.vstr "b@x.com", JVal.vstr "b@x.com"]),
   ("city", JVal.vstr "Mumbai")]

/-- Three companies whose names all normalize identically. -/
def companyA : PyDict :=
  [("company_name", JVal.vstr "Acme"), ("data_source", JVal.vstr "ColourcoatsBigin")]

/-- A second record of the first source with the same name. -/
def companyA2 : PyDict :=
  [("company_name", JVal.vstr "Acme"), ("data_source", JVal.vstr "ColourcoatsBigin")]

/-- A record of the second source with the same name. -/
def companyB : PyDict :=
  [("company_name", JVal.vstr "Acme"), ("data_source", JVal.vstr "MetaliaBigin")]

/-- The id-key names `unify_companies` passes to `chain_merge`. -/
def companyIdKeys : List String :=
  ["colourcoats_bigin_id", "metalia_bigin_id", "rolodex_id"]

/-- A relationship from Rolodex: person p at company c1 named Acme. -/
def crel1 : PyDict :=
  [("relationship_id", JVal.vstr "r1"), ("person_id", JVal.vstr "p"),
   ("company_id", JVal.vstr "c1"), ("company_name", JVal.vstr "Acme"),
   ("is_active", JVal.vbool true), ("start_date", JVal.vnull),
   ("title_at_company", JVal.vnull), ("data_source", JVal.vstr "Rolodex")]

/-- The same person and company id with a differently spelled name. -/
def crel2 : PyDict :=
  [("relationship_id", JVal.vstr "r2"), ("person_id", JVal.vstr "p"),
   ("company_id", JVal.vstr "c1"), ("company_name", JVal.vstr "Acme Ltd"),
   ("is_active", JVal.vnull), ("start_date", JVal.vnull),
   ("title_at_company", JVal.vnull), ("data_source", JVal.vstr "ColourcoatsBigin")]

/-- A Rolodex duplicate of `crel2` carrying affiliation metadata. -/
def crel3 : PyDict :=
  [("relationship_id", JVal.vstr "r3"), ("person_id", JVal.vstr "p"),
   ("company_id", JVal.vstr "c1"), ("company_name", JVal.vstr "Acme Ltd"),
   ("is_active", JVal.vbool true), ("start_date", JVal.vstr "2020-01-01"),
   ("title_at_company", JVal.vnull), ("data_source", JVal.vstr "Rolodex")]

/-- A record whose location string has an empty middle token. -/
def splitRecord : JVal := JVal.vdict [("loc", JVal.vstr "Mumbai, , India")]

/-- A small nested record for exercising standard navigation. -/
def navRecord : JVal :=
  JVal.vdict [("a", JVal.vdict [("b", JVal.vlist [JVal.vstr "x"])])]

theorem dictFind_dictSet_self (d : PyDict) (k : String) (v : JVal) :
    dictFind (dictSet d k v) k = some v := by
  induction d with
  | nil => simp [dictSet, dictFind]
  | cons p rest ih =>
    obtain ⟨k', v'⟩ := p
    by_cases h : k' = k
    · subst h
      simp [dictSet, dictFind]
    · simp only [dictSet, if_neg h, dictFind]
      simp [h, ih]

theorem dictFind_dictSet_other (d : PyDict) (k k' : String) (v : JVal)
    (hne : k' ≠ k) : dictFind (dictSet d k v) k' = dictFind d k' := by
  induction d with
  | nil => simp [dictSet, dictFind, Ne.symm hne]
  | cons p rest ih =>
    obtain ⟨k0, v0⟩ := p
    by_cases h : k0 = k
    · subst h
      simp [dictSet, dictFind, Ne.symm hne]
    · simp only [dictSet, if_neg h, dictFind]
      by_cases h2 : k0 = k'
      · simp [h2]
      · simp [h2, ih]

theorem simple_person_match_eq (rec1 rec2 : PyDict) :
    simple_person_match rec1 rec2 =
      (pyTruthy (dictGet rec1 "rolodex_id")
        && pyTruthy (dictGet rec2 "rolodex_id")
        && (pyStr (dictGet rec1 "rolodex_id") == pyStr (dictGet rec2 "rolodex_id"))) := by
  unfold simple_person_match
  cases h1 : pyTruthy (dictGet rec1 "rolodex_id") <;>
  cases h2 : pyTruthy (dictGet rec2 "rolodex_id") <;>
  cases he : (pyStr (dictGet rec1 "rolodex_id") == pyStr (dictGet rec2 "rolodex_id")) <;>
  simp [h1, h2, he, bne]

theorem simple_person_match_symm (rec1 rec2 : PyDict) :
    simple_person_match rec1 rec2 = simple_person_match rec2 rec1 := by
  rw [simple_person_match_eq, simple_person_match_eq]
  have hc : (pyStr (dictGet rec1 "rolodex_id") == pyStr (dictGet rec2 "rolodex_id"))
      = (pyStr (dictGet rec2 "rolodex_id") == pyStr (dictGet rec1 "rolodex_id")) := by
    simp [beq_iff_eq, eq_comm]
  rw [hc]
  cases pyTruthy (dictGet rec1 "rolodex_id") <;>
    cases pyTruthy (dictGet rec2 "rolodex_id") <;> simp

theorem simple_person_match_trans {r1 r2 r3 : PyDict}
    (h12 : simple_person_match r1 r2 = true)
    (h23 : simple_person_match r2 r3 = true) :
    simple_person_match r1 r3 = true := by
  rw [simple_person_match_eq] at h12 h23 ⊢
  simp only [Bool.and_eq_true, beq_iff_eq] at h12 h23 ⊢
  exact ⟨⟨h12.1.1, h23.1.2⟩, h12.2.trans h23.2⟩

theorem matchStep_symm (records : List PyDict) (i j : Nat) :
    matchStep records i j = matchStep records j i :=
  simple_person_match_symm _ _

theorem matchStep_trans {records : List PyDict} {i j k : Nat}
    (h1 : matchStep records i j = true) (h2 : matchStep records j k = true) :
    matchStep records i k = true :=
  simple_person_match_trans h1 h2

theorem matchStep_lt_right {records : List PyDict} {i j : Nat}
    (h : matchStep records i j = true) : j < records.length := by
  by_contra hj
  push_neg at hj
  have hrec : recAt records j = [] := List.getD_eq_default _ _ hj
  rw [matchStep, simple_person_match_eq, hrec] at h
  simp [dictGet, dictFind, pyTruthy] at h

theorem chained_collapse {records : List PyDict} {i j : Nat}
    (h : Chained records i j) : i = j ∨ matchStep records i j = true := by
  induction h with
  | refl => exact Or.inl rfl
  | tail hab hbc ih =>
    rcases ih with rfl | hm
    · exact Or.inr hbc
    · exact Or.inr (matchStep_trans hm hbc)

theorem mem_expandStep {records : List PyDict} {n : Nat} {s : List Nat} {j : Nat} :
    j ∈ expandStep records n s ↔
      j < n ∧ (j ∈ s ∨ ∃ i ∈ s, matchStep records i j = true) := by
  simp [expandStep, List.mem_filter, List.mem_range, List.any_eq_true,
    List.contains, List.elem_iff]

theorem expandStep_bound {records : List PyDict} {n : Nat} {s : List Nat} :
    ∀ x ∈ expandStep records n s, x < n :=
  fun _ hx => (mem_expandStep.mp hx).1

theorem subset_expandStep {records : List PyDict} {n : Nat} {s : List Nat}
    (hs : ∀ x ∈ s, x < n) : ∀ x ∈ s, x ∈ expandStep records n s :=
  fun x hx => mem_expandStep.mpr ⟨hs x hx, Or.inl hx⟩

theorem mem_iterate_of_mem {records : List PyDict} {n : Nat} :
    ∀ (k : Nat) (s : List Nat), (∀ x ∈ s, x < n) → ∀ x ∈ s,
      x ∈ Nat.iterate (expandStep records n) k s := by
  intro k
  induction k with
  | zero => intro s _ x hx; simpa using hx
  | succ k ih =>
    intro s hs x hx
    rw [Function.iterate_succ_apply]
    exact ih (expandStep records n s) expandStep_bound x (subset_expandStep hs x hx)

theorem reach_sound_aux {records : List PyDict} {n i : Nat} :
    ∀ (k : Nat) (s : List Nat), (∀ x ∈ s, Chained records i x) →
      ∀ j ∈ Nat.iterate (expandStep records n) k s, Chained records i j := by
  intro k
  induction k with
  | zero => intro s hs j hj; exact hs j (by simpa using hj)
  | succ k ih =>
    intro s hs j hj
    rw [Function.iterate_succ_apply] at hj
    refine ih (expandStep records n s) ?_ j hj
    intro x hx
    rcases (mem_expandStep.mp hx).2 with hmem | ⟨y, hy, hm⟩
    · exact hs x hmem
    · exact (hs y hy).tail hm

theorem reach_sound {records : List PyDict} {i j : Nat}
    (h : j ∈ reachSet records i) : Chained records i j := by
  refine reach_sound_aux records.length [i] ?_ j h
  intro x hx
  simp only [List.mem_singleton] at hx
  subst hx
  exact Relation.ReflTransGen.refl

theorem self_mem_reachSet {records : List PyDict} {i : Nat}
    (hi : i < records.length) : i ∈ reachSet records i := by
  refine mem_iterate_of_mem records.length [i] ?_ i (by simp)
  intro x hx
  simp only [List.mem_singleton] at hx
  omega

theorem mem_reachSet_of_match {records : List PyDict} {i j : Nat}
    (hi : i < records.length) (hm : matchStep records i j = true) :
    j ∈ reachSet records i := by
  have hn : records.length = (records.length - 1) + 1 := by omega
  rw [reachSet]
  conv_lhs => rw [hn]
  rw [Function.iterate_succ_apply]
  refine mem_iterate_of_mem _ _ expandStep_bound j ?_
  refine mem_expandStep.mpr ⟨?_, Or.inr ⟨i, by simp, hm⟩⟩
  have := matchStep_lt_right hm
  omega

theorem mem_reachSet_iff {records : List PyDict} {i j : Nat}
    (hi : i < records.length) :
    j ∈ reachSet records i ↔ (j = i ∨ matchStep records i j = true) := by
  constructor
  · intro h
    rcases chained_collapse (reach_sound h) with rfl | hm
    · exact Or.inl rfl
    · exact Or.inr hm
  · rintro (rfl | hm)
    · exact self_mem_reachSet hi
    · exact mem_reachSet_of_match hi hm

theorem exists_list_min {l : List Nat} (h : l ≠ []) :
    ∃ r ∈ l, ∀ x ∈ l, r ≤ x := by
  induction l with
  | nil => exact absurd rfl h
  | cons a t ih =>
    rcases eq_or_ne t [] with rfl | ht
    · exact ⟨a, by simp⟩
    · obtain ⟨r, hr, hmin⟩ := ih ht
      rcases le_total a r with hle | hle
      · refine ⟨a, by simp, ?_⟩
        intro x hx
        rcases List.mem_cons.mp hx with rfl | hx
        · exact le_refl _
        · exact hle.trans (hmin x hx)
      · refine ⟨r, by simp [hr], ?_⟩
        intro x hx
        rcases List.mem_cons.mp hx with rfl | hx
        · exact hle
        · exact hmin x hx

theorem reachSet_lt {records : List PyDict} {i j : Nat}
    (hi : i < records.length) (hj : j ∈ reachSet records i) :
    j < records.length := by
  rcases (mem_reachSet_iff hi).mp hj with rfl | hm
  · exact hi
  · exact matchStep_lt_right hm

/-- Connected candidates have the same component, as sets. -/
theorem reachSet_congr {records : List PyDict} {i i' : Nat}
    (hi : i < records.length) (hi' : i' < records.length)
    (hc : i' = i ∨ matchStep records i i' = true) :
    ∀ j, j ∈ reachSet records i ↔ j ∈ reachSet records i' := by
  intro j
  rcases hc with rfl | hm
  · rfl
  · rw [mem_reachSet_iff hi, mem_reachSet_iff hi']
    have hm' : matchStep records i' i = true := by
      rw [matchStep_symm]; exact hm
    constructor
    · rintro (rfl | h)
      · exact Or.inr hm'
      · rcases eq_or_ne j i' with rfl | hji
        · exact Or.inl rfl
        · exact Or.inr (matchStep_trans hm' h)
    · rintro (rfl | h)
      · exact Or.inr hm
      · rcases eq_or_ne j i with rfl | hji
        · exact Or.inl rfl
        · exact Or.inr (matchStep_trans hm h)

theorem mem_findMatchesIdx_iff {records : List PyDict} {g : List Nat} :
    g ∈ findMatchesIdx records ↔
      ∃ m, m < records.length ∧ (∀ x ∈ reachSet records m, m ≤ x) ∧
        g = reachSet records m := by
  simp only [findMatchesIdx, List.mem_map, List.mem_filter, List.mem_range,
    List.all_eq_true, decide_eq_true_eq]
  constructor
  · rintro ⟨m, ⟨hm, hall⟩, rfl⟩
    exact ⟨m, hm, hall, rfl⟩
  · rintro ⟨m, hm, hall, rfl⟩
    exact ⟨m, ⟨hm, hall⟩, rfl⟩

/-- Every candidate index below `records.length` lies in the group of the
least element of its component. -/
theorem exists_group_mem {records : List PyDict} {i : Nat}
    (hi : i < records.length) :
    ∃ g ∈ findMatchesIdx records, i ∈ g ∧
      ∀ j, j ∈ g ↔ j ∈ reachSet records i := by
  have hne : reachSet records i ≠ [] := by
    intro h
    have := self_mem_reachSet hi
    rw [h] at this
    exact absurd this (List.not_mem_nil i)
  obtain ⟨r, hr, hmin⟩ := exists_list_min hne
  have hrlt : r < records.length := reachSet_lt hi hr
  have hconn : r = i ∨ matchStep records i r = true := (mem_reachSet_iff hi).mp hr
  have hsets : ∀ j, j ∈ reachSet records i ↔ j ∈ reachSet records r :=
    reachSet_congr hi hrlt hconn
  refine ⟨reachSet records r, ?_, ?_, ?_⟩
  · refine mem_findMatchesIdx_iff.mpr ⟨r, hrlt, ?_, rfl⟩
    intro x hx
    exact hmin x ((hsets x).mpr hx)
  · have : i ∈ reachSet records i := self_mem_reachSet hi
    exact (hsets i).mp this
  · intro j
    exact (hsets j).symm

/-- Two groups sharing an element are the same group. -/
theorem group_unique {records : List PyDict} {g1 g2 : List Nat}
    (h1 : g1 ∈ findMatchesIdx records) (h2 : g2 ∈ findMatchesIdx records)
    {x : Nat} (hx1 : x ∈ g1) (hx2 : x ∈ g2) : g1 = g2 := by
  obtain ⟨m1, hm1, hmin1, rfl⟩ := mem_findMatchesIdx_iff.mp h1
  obtain ⟨m2, hm2, hmin2, rfl⟩ := mem_findMatchesIdx_iff.mp h2
  have hc1 : x = m1 ∨ matchStep records m1 x = true := (mem_reachSet_iff hm1).mp hx1
  have hc2 : x = m2 ∨ matchStep records m2 x = true := (mem_reachSet_iff hm2).mp hx2
  have hxlt : x < records.length := reachSet_lt hm1 hx1
  have hsets : ∀ j, j ∈ reachSet records m1 ↔ j ∈ reachSet records m2 := by
    intro j
    have e1 : ∀ j, j ∈ reachSet records m1 ↔ j ∈ reachSet records x := by
      refine reachSet_congr hm1 hxlt ?_
      rcases hc1 with rfl | hm
      · exact Or.inl rfl
      · exact Or.inr hm
    have e2 : ∀ j, j ∈ reachSet records m2 ↔ j ∈ reachSet records x := by
      refine reachSet_congr hm2 hxlt ?_
      rcases hc2 with rfl | hm
      · exact Or.inl rfl
      · exact Or.inr hm
    rw [e1 j, e2 j]
  have hm12 : m1 = m2 := by
    have ha : m1 ∈ reachSet records m2 := (hsets m1).mp (self_mem_reachSet hm1)
    have hb : m2 ∈ reachSet records m1 := (hsets m2).mpr (self_mem_reachSet hm2)
    exact Nat.le_antisymm (hmin1 m2 hb) (hmin2 m1 ha)
  rw [hm12]

/-- Same group iff chain-connected (both indices in range). -/
theorem same_group_iff_chained {records : List PyDict} {i j : Nat}
    (hi : i < records.length) (hj : j < records.length) :
    (∃ g ∈ findMatchesIdx records, i ∈ g ∧ j ∈ g) ↔ Chained records i j := by
  constructor
  · rintro ⟨g, hg, hig, hjg⟩
    obtain ⟨m, hm, _, rfl⟩ := mem_findMatchesIdx_iff.mp hg
    have hci : Chained records m i := by
      rcases (mem_reachSet_iff hm).mp hig with rfl | h
      · exact Relation.ReflTransGen.refl
      · exact Relation.ReflTransGen.single h
    have hcj : Chained records m j := by
      rcases (mem_reachSet_iff hm).mp hjg with rfl | h
      · exact Relation.ReflTransGen.refl
      · exact Relation.ReflTransGen.single h
    have hic : Chained records i m := by
      rcases chained_collapse hci with rfl | h
      · exact Relation.ReflTransGen.refl
      · refine Relation.ReflTransGen.single ?_
        rw [matchStep_symm]; exact h
    exact hic.trans hcj
  · intro hc
    obtain ⟨g, hg, hig, hmem⟩ := exists_group_mem hi
    refine ⟨g, hg, hig, ?_⟩
    rw [hmem j, mem_reachSet_iff hi]
    rcases chained_collapse hc with rfl | h
    · exact Or.inl rfl
    · exact Or.inr h

theorem char_eq_of_toNat_eq {a b : Char} (h : a.toNat = b.toNat) : a = b := by
  have ha := Char.ofNat_toNat a
  have hb := Char.ofNat_toNat b
  rw [← ha, ← hb, h]

theorem strLtB_trans : ∀ (a b c : List Char),
    strLtB a b = true → strLtB b c = true → strLtB a c = true := by
  intro a
  induction a with
  | nil =>
    intro b c h1 h2
    cases b with
    | nil => simp [strLtB] at h1
    | cons y ys =>
      cases c with
      | nil => simp [strLtB] at h2
      | cons z zs => simp [strLtB]
  | cons x xs ih =>
    intro b c h1 h2
    cases b with
    | nil => simp [strLtB] at h1
    | cons y ys =>
      cases c with
      | nil => simp [strLtB] at h2
      | cons z zs =>
        simp only [strLtB] at h1 h2 ⊢
        by_cases hxy : x.toNat < y.toNat
        · by_cases hyz : y.toNat < z.toNat
          · have hxz : x.toNat < z.toNat := by omega
            simp [hxz]
          · by_cases hzy : z.toNat < y.toNat
            · simp [hyz, hzy] at h2
            · have hxz : x.toNat < z.toNat := by omega
              simp [hxz]
        · by_cases hyx : y.toNat < x.toNat
          · simp [hxy, hyx] at h1
          · by_cases hyz : y.toNat < z.toNat
            · have hxz : x.toNat < z.toNat := by omega
              simp [hxz]
            · by_cases hzy : z.toNat < y.toNat
              · simp [hyz, hzy] at h2
              · have h1' : strLtB xs ys = true := by
                  simpa [hxy, hyx] using h1
                have h2' : strLtB ys zs = true := by
                  simpa [hyz, hzy] using h2
                have hxz1 : ¬ x.toNat < z.toNat := by omega
                have hxz2 : ¬ z.toNat < x.toNat := by omega
                simp [hxz1, hxz2, ih ys zs h1' h2']

theorem strLtB_total : ∀ (a b : List Char), a ≠ b →
    strLtB a b = true ∨ strLtB b a = true := by
  intro a
  induction a with
  | nil =>
    intro b hne
    cases b with
    | nil => exact absurd rfl hne
    | cons y ys => left; simp [strLtB]
  | cons x xs ih =>
    intro b hne
    cases b with
    | nil => right; simp [strLtB]
    | cons y ys =>
      by_cases hxy : x.toNat < y.toNat
      · left; simp [strLtB, hxy]
      · by_cases hyx : y.toNat < x.toNat
        · right; simp [strLtB, hyx, hxy]
        · have hx : x = y := char_eq_of_toNat_eq (by omega)
          subst hx
          have hne2 : xs ≠ ys := fun h => hne (by rw [h])
          rcases ih ys hne2 with h | h
          · left; simp [strLtB, Nat.lt_irrefl, h]
          · right; simp [strLtB, Nat.lt_irrefl, h]

theorem mem_insortUnique (s x : String) (l : List String) :
    x ∈ insortUnique s l ↔ x = s ∨ x ∈ l := by
  induction l with
  | nil => simp [insortUnique]
  | cons t ts ih =>
    by_cases h1 : (s == t) = true
    · have he : s = t := by simpa using h1
      subst he
      simp only [insortUnique, h1, if_true]
      simp [List.mem_cons] <;> tauto
    · by_cases h2 : strLtB s.toList t.toList = true
      · simp only [insortUnique, h1, h2, if_true, if_false]
        simp [List.mem_cons] <;> tauto
      · simp only [insortUnique, h1, h2, if_true, if_false]
        simp [List.mem_cons, ih] <;> tauto

theorem pairwise_insortUnique (s : String) (l : List String)
    (h : l.Pairwise (fun a b => strLtB a.toList b.toList = true)) :
    (insortUnique s l).Pairwise (fun a b => strLtB a.toList b.toList = true) := by
  induction l with
  | nil => simp [insortUnique]
  | cons t ts ih =>
    rcases List.pairwise_cons.mp h with ⟨ht, hts⟩
    by_cases h1 : (s == t) = true
    · simpa [insortUnique, h1] using h
    · by_cases h2 : strLtB s.toList t.toList = true
      · simp only [insortUnique, h1, h2, if_true, if_false]
        refine List.pairwise_cons.mpr ⟨?_, h⟩
        intro b hb
        rcases List.mem_cons.mp hb with rfl | hb
        · exact h2
        · exact strLtB_trans _ _ _ h2 (ht b hb)
      · simp only [insortUnique, h1, h2, if_true, if_false]
        refine List.pairwise_cons.mpr ⟨?_, ih hts⟩
        intro b hb
        rcases (mem_insortUnique s b ts).mp hb with rfl | hb
        · have hne : b ≠ t := fun he => h1 (by simp [he])
          have hne2 : t.toList ≠ b.toList := by
            intro he
            exact hne (by
              cases b; cases t
              simp_all [String.toList])
          rcases strLtB_total t.toList b.toList hne2 with hh | hh
          · exact hh
          · exact absurd hh h2
        · exact ht b hb

theorem sortedDedup_pairwise (l : List String) :
    (sortedDedup l).Pairwise (fun a b => strLtB a.toList b.toList = true) := by
  induction l with
  | nil => simp [sortedDedup]
  | cons a t ih => exact pairwise_insortUnique a _ ih

theorem sortedDedup_mem (l : List String) (x : String) :
    x ∈ sortedDedup l ↔ x ∈ l := by
  induction l with
  | nil => simp [sortedDedup]
  | cons a t ih =>
    show x ∈ insortUnique a (sortedDedup t) ↔ _
    rw [mem_insortUnique]
    simp [ih]

theorem mergeField_cases (mp m : PyDict) (f : String) (v : JVal) :
    Personnel.mergeField mp m f v = m ∨
      ∃ w, Personnel.mergeField mp m f v = dictSet m f w := by
  unfold Personnel.mergeField
  by_cases h1 : f = "person_id" ∨ f = "data_source"
  · simp [h1]
  · simp only [h1, if_false]
    by_cases h2 : pyEq (Personnel.fieldType mp f) (JVal.vstr "array") = true
    · simp only [h2, if_true]
      rcases hf : dictFind m f with _ | c
      · right; exact ⟨v, rfl⟩
      · by_cases h3 : pyTruthy c = true
        · by_cases h4 : pyTruthy v = true
          · simp only [h3, h4, Bool.not_true, if_false, if_true]
            right; exact ⟨_, rfl⟩
          · simp only [h3, h4, Bool.not_true, if_false]
            left; rfl
        · simp only [h3, Bool.not_false, if_true]
          right; exact ⟨v, rfl⟩
    · simp only [h2, if_false]
      by_cases h5 : (isNull (dictGet m f) && !isNull v) = true
      · simp only [h5, if_true]; right; exact ⟨v, rfl⟩
      · simp only [h5, if_false]; left; rfl

theorem mergeField_preserve (mp m : PyDict) (f : String) (v : JVal) (k : String)
    (hk : k ≠ f) :
    dictFind (Personnel.mergeField mp m f v) k = dictFind m k := by
  rcases mergeField_cases mp m f v with h | ⟨w, h⟩
  · rw [h]
  · rw [h, dictFind_dictSet_other _ _ _ _ hk]

theorem mergeField_ds (mp m : PyDict) (f : String) (v : JVal) :
    dictFind (Personnel.mergeField mp m f v) "data_source"
      = dictFind m "data_source" := by
  by_cases h : f = "data_source"
  · subst h
    unfold Personnel.mergeField
    rw [if_pos (Or.inr rfl)]
  · exact mergeField_preserve mp m f v _ (Ne.symm h)

theorem mergeField_self (mp m : PyDict) (f : String) (v : JVal) :
    dictFind (Personnel.mergeField mp m f v) f =
      Personnel.fieldStep mp f (dictFind m f) (some v) := by
  unfold Personnel.mergeField Personnel.fieldStep
  by_cases h1 : f = "person_id" ∨ f = "data_source"
  · simp [h1]
  · simp only [h1, if_false]
    by_cases h2 : pyEq (Personnel.fieldType mp f) (JVal.vstr "array") = true
    · simp only [h2, if_true]
      rcases hf : dictFind m f with _ | c
      · simp [dictFind_dictSet_self]
      · by_cases h3 : pyTruthy c = true
        · by_cases h4 : pyTruthy v = true
          · simp [h3, h4, dictFind_dictSet_self]
          · simp [h3, h4, hf]
        · simp [h3, dictFind_dictSet_self]
    · simp only [h2, if_false]
      rcases hf : dictFind m f with _ | c
      · have hn : isNull (dictGet m f) = true := by rw [dictGet, hf]; rfl
        by_cases h5 : isNull v = true
        · simp only [hn, h5, hf]
          simp [hf]
        · have h5f : isNull v = false := by revert h5; cases isNull v <;> simp
          simp only [hn, h5f, hf]
          simp [dictFind_dictSet_self]
      · have hn : isNull (dictGet m f) = isNull c := by rw [dictGet, hf]; rfl
        by_cases h5 : isNull c = true
        · by_cases h6 : isNull v = true
          · simp only [hn, h5, h6, hf]
            simp [hf]
          · have h6f : isNull v = false := by revert h6; cases isNull v <;> simp
            simp only [hn, h5, h6f, hf]
            simp [dictFind_dictSet_self]
        · have h5f : isNull c = false := by revert h5; cases isNull c <;> simp
          simp only [hn, h5f, hf]
          simp [hf]

theorem mergeInto_preserve_aux (mp : PyDict) (f : String) :
    ∀ (r : List (String × JVal)) (m : PyDict), (∀ p ∈ r, p.1 ≠ f) →
      dictFind (Personnel.mergeInto mp m r) f = dictFind m f := by
  intro r
  induction r with
  | nil => intro m _; rfl
  | cons p rest ih =>
    intro m hp
    show dictFind (Personnel.mergeInto mp (Personnel.mergeField mp m p.1 p.2) rest) f
      = dictFind m f
    rw [ih _ (fun q hq => hp q (List.mem_cons_of_mem _ hq))]
    exact mergeField_preserve mp m p.1 p.2 f (Ne.symm (hp p (List.mem_cons_self _ _)))

theorem mergeInto_ds (mp : PyDict) :
    ∀ (r : List (String × JVal)) (m : PyDict),
      dictFind (Personnel.mergeInto mp m r) "data_source"
        = dictFind m "data_source" := by
  intro r
  induction r with
  | nil => intro m; rfl
  | cons p rest ih =>
    intro m
    show dictFind (Personnel.mergeInto mp (Personnel.mergeField mp m p.1 p.2) rest) _
      = _
    rw [ih, mergeField_ds]

theorem mergeInto_field (mp : PyDict) (f : String) :
    ∀ (r : PyDict) (m : PyDict), (r.map Prod.fst).Nodup →
      dictFind (Personnel.mergeInto mp m r) f =
        Personnel.fieldStep mp f (dictFind m f) (dictFind r f) := by
  intro r
  induction r with
  | nil => intro m _; rfl
  | cons p rest ih =>
    intro m hnd
    obtain ⟨g, w⟩ := p
    simp only [List.map_cons, List.nodup_cons] at hnd
    by_cases hg : g = f
    · subst hg
      show dictFind (Personnel.mergeInto mp (Personnel.mergeField mp m g w) rest) g
        = Personnel.fieldStep mp g (dictFind m g) (dictFind ((g, w) :: rest) g)
      have hrest : ∀ p ∈ rest, p.1 ≠ g := by
        intro q hq he
        exact hnd.1 (he ▸ List.mem_map_of_mem Prod.fst hq)
      rw [mergeInto_preserve_aux mp g rest _ hrest, mergeField_self]
      simp [dictFind]
    · show dictFind (Personnel.mergeInto mp (Personnel.mergeField mp m g w) rest) f
        = Personnel.fieldStep mp f (dictFind m f) (dictFind ((g, w) :: rest) f)
      rw [ih _ hnd.2, mergeField_preserve mp m g w f (fun he => hg he.symm)]
      simp [dictFind, hg]

theorem merge_fold_field (mp : PyDict) (f : String) :
    ∀ (rs : List PyDict) (m : PyDict), (∀ r ∈ rs, (r.map Prod.fst).Nodup) →
      dictFind (rs.foldl (Personnel.mergeInto mp) m) f =
        rs.foldl (fun cur r => Personnel.fieldStep mp f cur (dictFind r f))
          (dictFind m f) := by
  intro rs
  induction rs with
  | nil => intro m _; rfl
  | cons r rest ih =>
    intro m h
    simp only [List.foldl_cons]
    rw [ih _ (fun q hq => h q (List.mem_cons_of_mem _ hq)),
        mergeInto_field mp f r m (h r (List.mem_cons_self _ _))]

theorem merge_fold_ds (mp : PyDict) :
    ∀ (rs : List PyDict) (m : PyDict),
      dictFind (rs.foldl (Personnel.mergeInto mp) m) "data_source"
        = dictFind m "data_source" := by
  intro rs
  induction rs with
  | nil => intro m; rfl
  | cons r rest ih =>
    intro m
    simp only [List.foldl_cons]
    rw [ih, mergeInto_ds]

theorem mem_insertByPriority (a x : PyDict) (l : List PyDict) :
    x ∈ Personnel.insertByPriority a l ↔ x = a ∨ x ∈ l := by
  induction l with
  | nil => simp [Personnel.insertByPriority]
  | cons b t ih =>
    by_cases h : Personnel.record_priority b ≤ Personnel.record_priority a
    · simp [Personnel.insertByPriority, h, List.mem_cons] <;> tauto
    · simp [Personnel.insertByPriority, h, List.mem_cons, ih] <;> tauto

theorem mem_sortByPriority (x : PyDict) (l : List PyDict) :
    x ∈ Personnel.sortByPriority l ↔ x ∈ l := by
  induction l with
  | nil => simp [Personnel.sortByPriority]
  | cons a t ih =>
    simp [Personnel.sortByPriority, mem_insertByPriority, ih]

theorem contains_false_forall (l : List String) (a : String)
    (h : l.contains a = false) : ∀ k ∈ l, k ≠ a := by
  intro k hk he
  subst he
  simp [List.contains] at h
  exact h hk

theorem idKeyStep_fold_ds (rec2 : PyDict) :
    ∀ (keys : List String) (m : PyDict), (∀ k ∈ keys, k ≠ "data_source") →
      dictFind (keys.foldl (Companies.idKeyStep rec2) m) "data_source"
        = dictFind m "data_source" := by
  intro keys
  induction keys with
  | nil => intro m _; rfl
  | cons k rest ih =>
    intro m h
    simp only [List.foldl_cons]
    rw [ih _ (fun q hq => h q (List.mem_cons_of_mem _ hq))]
    unfold Companies.idKeyStep
    split_ifs
    · exact dictFind_dictSet_other _ _ _ _
        (Ne.symm (h k (List.mem_cons_self _ _)))
    · rfl

theorem fillStep_fold_ds (idk : List String) :
    ∀ (fvs : List (String × JVal)) (m : PyDict),
      dictFind (fvs.foldl (Companies.fillStep idk) m) "data_source"
        = dictFind m "data_source" := by
  intro fvs
  induction fvs with
  | nil => intro m; rfl
  | cons fv rest ih =>
    intro m
    simp only [List.foldl_cons]
    rw [ih]
    unfold Companies.fillStep
    by_cases h1 : fv.1 = "company_id" ∨ fv.1 = "data_source" ∨ idk.contains fv.1 = true
    · rw [if_pos h1]
    · have hne : fv.1 ≠ "data_source" := fun he => h1 (Or.inr (Or.inl he))
      rw [if_neg h1]
      split_ifs
      · exact dictFind_dictSet_other _ _ _ _ (Ne.symm hne)
      · rfl

/-- C3 (amended): in `merge_records`, for every non-identity field, the
merged binding is obtained by folding the per-field policy `fieldStep`
over the lower-priority members in descending stable priority order,
starting from the top-priority member: array-typed fields append the
incoming elements not already present (duplicates inside the incoming
list are kept), scalar fields are filled only while the canonical value
is None. -/
theorem merge_records_field_policy (records : List PyDict) (mappings : PyDict)
    (field : String) (hlen : 2 ≤ records.length)
    (hf1 : field ≠ "person_id") (hf2 : field ≠ "data_source")
    (hnd : ∀ r ∈ records, (r.map Prod.fst).Nodup) :
    dictFind (Personnel.merge_records records mappings) field =
      ((Personnel.sortByPriority records).drop 1).foldl
        (fun cur r => Personnel.fieldStep mappings field cur (dictFind r field))
        (dictFind (recAt (Personnel.sortByPriority records) 0) field) := by
  unfold Personnel.merge_records
  have hne1 : ¬ records.length = 1 := by omega
  simp only [hne1, if_false]
  have hdrop : ∀ r ∈ (Personnel.sortByPriority records).drop 1,
      (r.map Prod.fst).Nodup := by
    intro r hr
    exact hnd r ((mem_sortByPriority r records).mp (List.mem_of_mem_drop hr))
  rw [merge_fold_field mappings field _ _ hdrop,
      dictFind_dictSet_other _ _ _ _ hf2]

/-- C4 (amended): `sortedDedup` really is the ascending duplicate-free
enumeration; the personnel `merge_records` always sets `data_source` to
the `+`-joined sorted deduplicated member labels (groups of any size,
including singletons); the companies `merge_records` instead
concatenates the two labels in argument order, without sorting or
deduplication. -/
theorem data_source_union_amended :
    (∀ l : List String,
      (sortedDedup l).Pairwise (fun a b => strLtB a.toList b.toList = true) ∧
      (∀ x, x ∈ sortedDedup l ↔ x ∈ l)) ∧
    (∀ (records : List PyDict) (mappings : PyDict), records ≠ [] →
      (∀ r ∈ records, isStrDS r = true) →
      dictFind (Personnel.merge_records records mappings) "data_source" =
        some (JVal.vstr (joinPlus (sortedDedup (records.map dsString))))) ∧
    (∀ (rec1 rec2 : PyDict) (id_keys : List String),
      id_keys.contains "data_source" = false →
      dictFind (Companies.merge_records rec1 rec2 id_keys) "data_source" =
        some (JVal.vstr (pyStr (dictGet rec1 "data_source") ++ "+"
          ++ pyStr (dictGet rec2 "data_source")))) := by
  refine ⟨fun l => ⟨sortedDedup_pairwise l, fun x => sortedDedup_mem l x⟩, ?_, ?_⟩
  · intro records mappings hne hstr
    unfold Personnel.merge_records
    by_cases h1 : records.length = 1
    · simp only [h1, if_true]
      rcases records with _ | ⟨r, rest⟩
      · simp at h1
      · have hrest : rest = [] := by
          simp only [List.length_cons] at h1
          exact List.eq_nil_of_length_eq_zero (by omega)
        subst hrest
        have hs := hstr r (List.mem_cons_self _ _)
        unfold isStrDS at hs
        rcases hd : dictFind r "data_source" with _ | v
        · rw [hd] at hs; exact Bool.noConfusion hs
        · rw [hd] at hs
          rcases v with _ | b | n | s | lv | dv <;> try exact Bool.noConfusion hs
          have hds : dsString r = s := by
            simp [dsString, dictGet, hd]
          show dictFind r "data_source" = _
          rw [hd]
          simp [hds, sortedDedup, insortUnique, joinPlus]
    · simp only [h1, if_false]
      rw [merge_fold_ds, dictFind_dictSet_self]
  · intro rec1 rec2 id_keys hkeys
    unfold Companies.merge_records
    rw [fillStep_fold_ds,
        idKeyStep_fold_ds rec2 id_keys _ (contains_false_forall _ _ hkeys),
        dictFind_dictSet_self]

mutual
theorem pyEq_refl : ∀ a, pyEq a a = true
  | JVal.vnull => rfl
  | JVal.vbool b => by simp [pyEq]
  | JVal.vint n => by simp [pyEq]
  | JVal.vstr s => by simp [pyEq]
  | JVal.vlist l => by
    show pyEqList l l = true
    exact pyEqList_refl l
  | JVal.vdict d => by
    show pyEqDict d d = true
    exact pyEqDict_refl d
termination_by structural a => a

theorem pyEqList_refl : ∀ l, pyEqList l l = true
  | [] => rfl
  | a :: as_ => by
    show (pyEq a a && pyEqList as_ as_) = true
    rw [pyEq_refl a, pyEqList_refl as_]
    rfl
termination_by structural l => l

theorem pyEqDict_refl : ∀ d, pyEqDict d d = true
  | [] => rfl
  | (k, v) :: rest => by
    show (pyEq v v && pyEqDict rest rest) = true
    rw [pyEq_refl v, pyEqDict_refl rest]
    rfl
termination_by structural d => d
end

theorem relKeyEq_refl (k : JVal × JVal × JVal) : relKeyEq k k = true := by
  unfold relKeyEq
  rw [pyEq_refl, pyEq_refl, pyEq_refl]
  rfl

theorem relFill_preserve (rel : PyDict) :
    ∀ (fields : List String) (e : PyDict) (k : String),
      (∀ f ∈ fields, f ≠ k) →
      dictFind (fields.foldl (relFillStep rel) e) k = dictFind e k := by
  intro fields
  induction fields with
  | nil => intro e k _; rfl
  | cons f rest ih =>
    intro e k h
    simp only [List.foldl_cons]
    rw [ih _ _ (fun q hq => h q (List.mem_cons_of_mem _ hq))]
    unfold relFillStep
    split_ifs
    · exact dictFind_dictSet_other _ _ _ _
        (Ne.symm (h f (List.mem_cons_self _ _)))
    · rfl

theorem relFill_get_preserve (rel : PyDict) (e : PyDict) (f k : String)
    (hk : k ≠ f) :
    dictGet (relFillStep rel e f) k = dictGet e k := by
  unfold relFillStep dictGet
  split_ifs
  · rw [dictFind_dictSet_other _ _ _ _ hk]
  · rfl

theorem relFill_fills (rel : PyDict) :
    ∀ (fields : List String) (e : PyDict) (f : String),
      fields.Nodup → f ∈ fields →
      pyTruthy (dictGet rel f) = true → pyTruthy (dictGet e f) = false →
      dictFind (fields.foldl (relFillStep rel) e) f = some (dictGet rel f) := by
  intro fields
  induction fields with
  | nil => intro e f _ hf; exact absurd hf (List.not_mem_nil f)
  | cons g rest ih =>
    intro e f hnd hf htr hfe
    simp only [List.foldl_cons]
    rcases List.mem_cons.mp hf with rfl | hf2
    · have hrest : ∀ q ∈ rest, q ≠ f := by
        intro q hq he
        exact (List.nodup_cons.mp hnd).1 (he ▸ hq)
      rw [relFill_preserve rel rest _ f hrest]
      unfold relFillStep
      rw [htr, hfe]
      simp [dictFind_dictSet_self]
    · have hg : f ≠ g := by
        intro he
        exact (List.nodup_cons.mp hnd).1 (he ▸ hf2)
      refine ih _ f (List.nodup_cons.mp hnd).2 hf2 htr ?_
      rw [relFill_get_preserve rel e g f hg]
      exact hfe

theorem relKey_mergeRelInto (e rel : PyDict) :
    relKey (mergeRelInto e rel) = relKey e := by
  unfold mergeRelInto relKey
  have hset : ∀ (x : PyDict) (v : JVal) (k : String), k ≠ "data_source" →
      dictGet (dictSet x "data_source" v) k = dictGet x k := by
    intro x v k hk
    unfold dictGet
    rw [dictFind_dictSet_other _ _ _ _ hk]
  have hfill : ∀ (x : PyDict) (k : String), k ≠ "is_active" →
      k ≠ "start_date" → k ≠ "title_at_company" →
      dictGet (["is_active", "start_date", "title_at_company"].foldl
        (relFillStep rel) x) k = dictGet x k := by
    intro x k h1 h2 h3
    unfold dictGet
    rw [relFill_preserve rel _ x k ?_]
    intro q hq
    simp only [List.mem_cons, List.mem_singleton, List.not_mem_nil, or_false] at hq
    rcases hq with rfl | rfl | rfl
    · exact Ne.symm h1
    · exact Ne.symm h2
    · exact Ne.symm h3
  split_ifs with hrol
  · rw [hset _ _ _ (by decide), hset _ _ _ (by decide), hset _ _ _ (by decide),
        hfill _ _ (by decide) (by decide) (by decide),
        hfill _ _ (by decide) (by decide) (by decide),
        hfill _ _ (by decide) (by decide) (by decide)]
  · rw [hset _ _ _ (by decide), hset _ _ _ (by decide), hset _ _ _ (by decide)]

theorem updateFirst_map_key (k : JVal × JVal × JVal) (rel : PyDict) :
    ∀ (l : List PyDict),
      (updateFirstByKey k rel l).map relKey = l.map relKey := by
  intro l
  induction l with
  | nil => rfl
  | cons e rest ih =>
    unfold updateFirstByKey
    split_ifs
    · simp [relKey_mergeRelInto]
    · simp [ih]

theorem mem_updateFirst_key (k : JVal × JVal × JVal) (rel : PyDict) :
    ∀ (l : List PyDict) (e : PyDict), e ∈ updateFirstByKey k rel l →
      relKey e ∈ l.map relKey := by
  intro l
  induction l with
  | nil => intro e he; exact absurd he (List.not_mem_nil e)
  | cons x rest ih =>
    intro e he
    unfold updateFirstByKey at he
    split_ifs at he
    · rcases List.mem_cons.mp he with rfl | he2
      · simp [relKey_mergeRelInto]
      · simp only [List.map_cons, List.mem_cons]
        exact Or.inr (List.mem_map_of_mem relKey he2)
    · rcases List.mem_cons.mp he with rfl | he2
      · simp
      · simp only [List.map_cons, List.mem_cons]
        exact Or.inr (ih e he2)

theorem relStep_pairwise (acc : List PyDict) (rel : PyDict)
    (h : (acc.map relKey).Pairwise (fun a b => relKeyEq a b = false)) :
    ((relStep acc rel).map relKey).Pairwise (fun a b => relKeyEq a b = false) := by
  unfold relStep
  split_ifs with hdup
  · rw [updateFirst_map_key]
    exact h
  · rw [List.map_append]
    rw [List.pairwise_append]
    refine ⟨h, by simp, ?_⟩
    intro a ha b hb
    simp only [List.map_cons, List.map_nil, List.mem_singleton] at hb
    subst hb
    rcases List.mem_map.mp ha with ⟨e, he, rfl⟩
    have hall : ∀ x ∈ acc, relKeyEq (relKey x) (relKey rel) = false := by
      simpa using hdup
    exact hall e he

theorem merge_company_relationships_pairwise (rels : List PyDict) :
    ((merge_company_relationships rels).map relKey).Pairwise
      (fun a b => relKeyEq a b = false) := by
  unfold merge_company_relationships
  have haux : ∀ (rs : List PyDict) (acc : List PyDict),
      (acc.map relKey).Pairwise (fun a b => relKeyEq a b = false) →
      ((rs.foldl relStep acc).map relKey).Pairwise
        (fun a b => relKeyEq a b = false) := by
    intro rs
    induction rs with
    | nil => intro acc h; exact h
    | cons r rest ih =>
      intro acc h
      simp only [List.foldl_cons]
      exact ih _ (relStep_pairwise acc r h)
  exact haux rels [] (by simp)

theorem merge_company_relationships_keys_sub (rels : List PyDict) :
    ∀ e ∈ merge_company_relationships rels, relKey e ∈ rels.map relKey := by
  unfold merge_company_relationships
  have haux : ∀ (rs acc : List PyDict) (pool : List (JVal × JVal × JVal)),
      (∀ e ∈ acc, relKey e ∈ pool) → (∀ r ∈ rs, relKey r ∈ pool) →
      ∀ e ∈ rs.foldl relStep acc, relKey e ∈ pool := by
    intro rs
    induction rs with
    | nil => intro acc pool ha _ e he; exact ha e he
    | cons r rest ih =>
      intro acc pool ha hr e he
      simp only [List.foldl_cons] at he
      refine ih _ pool ?_ (fun q hq => hr q (List.mem_cons_of_mem _ hq)) e he
      intro x hx
      unfold relStep at hx
      split_ifs at hx
      · have := mem_updateFirst_key (relKey r) r acc x hx
        rcases List.mem_map.mp this with ⟨y, hy, hk⟩
        rw [← hk]
        exact ha y hy
      · rcases List.mem_append.mp hx with hx2 | hx2
        · exact ha x hx2
        · rcases List.mem_singleton.mp hx2 with rfl
          exact hr x (List.mem_cons_self _ _)
  intro e he
  exact haux rels [] (rels.map relKey)
    (fun x hx => absurd hx (List.not_mem_nil x))
    (fun r hr => List.mem_map_of_mem relKey hr) e he

theorem key_presence_persists (k : JVal × JVal × JVal) :
    ∀ (rs acc : List PyDict),
      (∃ e ∈ acc, relKeyEq (relKey e) k = true) →
      ∃ e ∈ rs.foldl relStep acc, relKeyEq (relKey e) k = true := by
  intro rs
  induction rs with
  | nil => intro acc h; exact h
  | cons r rest ih =>
    intro acc h
    simp only [List.foldl_cons]
    refine ih _ ?_
    obtain ⟨e, he, hk⟩ := h
    unfold relStep
    split_ifs with hdup
    · have : relKey e ∈ (updateFirstByKey (relKey r) r acc).map relKey := by
        rw [updateFirst_map_key]
        exact List.mem_map_of_mem relKey he
      rcases List.mem_map.mp this with ⟨e2, he2, hk2⟩
      exact ⟨e2, he2, by rw [hk2]; exact hk⟩
    · exact ⟨e, List.mem_append.mpr (Or.inl he), hk⟩

theorem merge_company_relationships_covers (rels : List PyDict) :
    ∀ r ∈ rels, ∃ e ∈ merge_company_relationships rels,
      relKeyEq (relKey e) (relKey r) = true := by
  unfold merge_company_relationships
  have haux : ∀ (rs acc : List PyDict) (r : PyDict), r ∈ rs →
      ∃ e ∈ rs.foldl relStep acc, relKeyEq (relKey e) (relKey r) = true := by
    intro rs
    induction rs with
    | nil => intro acc r hr; exact absurd hr (List.not_mem_nil r)
    | cons x rest ih =>
      intro acc r hr
      simp only [List.foldl_cons]
      rcases List.mem_cons.mp hr with rfl | hr2
      · refine key_presence_persists (relKey r) rest _ ?_
        unfold relStep
        split_ifs with hdup
        · simp only [List.any_eq_true] at hdup
          obtain ⟨e, he, hk⟩ := hdup
          have : relKey e ∈ (updateFirstByKey (relKey r) r acc).map relKey := by
            rw [updateFirst_map_key]
            exact List.mem_map_of_mem relKey he
          rcases List.mem_map.mp this with ⟨e2, he2, hk2⟩
          exact ⟨e2, he2, by rw [hk2]; exact hk⟩
        · exact ⟨r, List.mem_append.mpr (Or.inr (List.mem_singleton.mpr rfl)),
            relKeyEq_refl _⟩
      · exact ih _ r hr2
  intro r hr
  exact haux rels [] r hr

theorem pyWordsGo_single : ∀ (w : List Char) (acc : List Char), w ≠ [] →
    (∀ c ∈ w, pyIsSpace c = false) →
    pyWordsGo w acc = [acc.reverse ++ w] := by
  intro w
  induction w with
  | nil => intro acc h _; exact absurd rfl h
  | cons c cs ih =>
    intro acc _ hsp
    have hc : pyIsSpace c = false := hsp c (List.mem_cons_self _ _)
    rcases eq_or_ne cs [] with rfl | hcs
    · show pyWordsGo [c] acc = _
      simp only [pyWordsGo, hc, Bool.false_eq_true, if_false]
      simp [pyWordsGo]
    · show pyWordsGo (c :: cs) acc = _
      simp only [pyWordsGo, hc, Bool.false_eq_true, if_false]
      rw [ih (c :: acc) hcs (fun x hx => hsp x (List.mem_cons_of_mem _ hx))]
      simp

theorem pyWordsGo_word_space : ∀ (w : List Char) (t acc : List Char), w ≠ [] →
    (∀ c ∈ w, pyIsSpace c = false) →
    pyWordsGo (w ++ ' ' :: t) acc = (acc.reverse ++ w) :: pyWordsGo t [] := by
  intro w
  induction w with
  | nil => intro t acc h _; exact absurd rfl h
  | cons c cs ih =>
    intro t acc _ hsp
    have hc : pyIsSpace c = false := hsp c (List.mem_cons_self _ _)
    rcases eq_or_ne cs [] with rfl | hcs
    · show pyWordsGo (c :: ' ' :: t) acc = _
      simp only [pyWordsGo, hc, Bool.false_eq_true, if_false,
        (by decide : pyIsSpace ' ' = true), if_true, List.isEmpty_cons]
      simp
    · show pyWordsGo (c :: (cs ++ ' ' :: t)) acc = _
      simp only [pyWordsGo, hc, Bool.false_eq_true, if_false]
      rw [ih t (c :: acc) hcs (fun x hx => hsp x (List.mem_cons_of_mem _ hx))]
      simp

theorem pyWords_spaceJoin : ∀ (ws : List (List Char)),
    (∀ w ∈ ws, w ≠ [] ∧ ∀ c ∈ w, pyIsSpace c = false) →
    pyWords (spaceJoin ws) = ws := by
  intro ws
  induction ws with
  | nil => intro _; rfl
  | cons w rest ih =>
    intro h
    rcases eq_or_ne rest [] with rfl | hrest
    · show pyWords (spaceJoin [w]) = [w]
      have hw := h w (List.mem_cons_self _ _)
      unfold spaceJoin pyWords
      rw [pyWordsGo_single w [] hw.1 hw.2]
      rfl
    · have hw := h w (List.mem_cons_self _ _)
      rcases rest with _ | ⟨w2, rest2⟩
      · exact absurd rfl hrest
      · show pyWords (w ++ ' ' :: spaceJoin (w2 :: rest2)) = w :: w2 :: rest2
        unfold pyWords
        rw [pyWordsGo_word_space w _ [] hw.1 hw.2]
        have := ih (fun q hq => h q (List.mem_cons_of_mem _ hq))
        unfold pyWords at this
        rw [this]
        simp

theorem pyWordsGo_good : ∀ (l acc : List Char),
    (∀ c ∈ acc, pyIsSpace c = false) →
    ∀ w ∈ pyWordsGo l acc, w ≠ [] ∧ ∀ c ∈ w, pyIsSpace c = false := by
  intro l
  induction l with
  | nil =>
    intro acc hacc w hw
    unfold pyWordsGo at hw
    rcases eq_or_ne acc [] with rfl | hne
    · simp at hw
    · have hie : acc.isEmpty = false := by
        simpa [List.isEmpty_iff] using hne
      rw [hie] at hw
      simp only [Bool.false_eq_true, if_false, List.mem_singleton] at hw
      subst hw
      refine ⟨by simpa using hne, ?_⟩
      intro c hc
      exact hacc c (List.mem_reverse.mp hc)
  | cons c cs ih =>
    intro acc hacc w hw
    unfold pyWordsGo at hw
    by_cases hc : pyIsSpace c = true
    · rw [hc] at hw
      simp only [if_true] at hw
      rcases eq_or_ne acc [] with rfl | hne
      · simp at hw
        exact ih [] (by simp) w hw
      · have hie : acc.isEmpty = false := by
          simpa [List.isEmpty_iff] using hne
        rw [hie] at hw
        simp only [Bool.false_eq_true, if_false, List.mem_cons] at hw
        rcases hw with rfl | hw
        · refine ⟨by simpa using hne, ?_⟩
          intro x hx
          exact hacc x (List.mem_reverse.mp hx)
        · exact ih [] (by simp) w hw
    · have hc2 : pyIsSpace c = false := by
        revert hc; cases pyIsSpace c <;> simp
      rw [hc2] at hw
      simp only [Bool.false_eq_true, if_false] at hw
      refine ih (c :: acc) ?_ w hw
      intro x hx
      rcases List.mem_cons.mp hx with rfl | hx
      · exact hc2
      · exact hacc x hx

theorem spaceJoin_ne_nil : ∀ (ws : List (List Char)), ws ≠ [] →
    (∀ w ∈ ws, w ≠ []) → spaceJoin ws ≠ [] := by
  intro ws hne hgood
  rcases ws with _ | ⟨w, rest⟩
  · exact absurd rfl hne
  · rcases rest with _ | ⟨w2, rest2⟩
    · exact hgood w (List.mem_cons_self _ _)
    · show w ++ ' ' :: spaceJoin (w2 :: rest2) ≠ []
      simp

theorem reverse_head_nonspace (w : List Char) (hne : w ≠ [])
    (hsp : ∀ c ∈ w, pyIsSpace c = false) :
    ∃ c rest, w.reverse = c :: rest ∧ pyIsSpace c = false := by
  rcases hr : w.reverse with _ | ⟨c, rest⟩
  · exact absurd (by simpa using congrArg List.reverse hr) hne
  · refine ⟨c, rest, rfl, ?_⟩
    have : c ∈ w.reverse := by rw [hr]; exact List.mem_cons_self _ _
    exact hsp c (List.mem_reverse.mp this)

theorem spaceJoin_reverse_head : ∀ (ws : List (List Char)), ws ≠ [] →
    (∀ w ∈ ws, w ≠ [] ∧ ∀ c ∈ w, pyIsSpace c = false) →
    ∃ c rest, (spaceJoin ws).reverse = c :: rest ∧ pyIsSpace c = false := by
  intro ws
  induction ws with
  | nil => intro h _; exact absurd rfl h
  | cons w rest ih =>
    intro _ hgood
    rcases rest with _ | ⟨w2, rest2⟩
    · exact reverse_head_nonspace w (hgood w (List.mem_cons_self _ _)).1
        (hgood w (List.mem_cons_self _ _)).2
    · obtain ⟨c, r2, hr, hc⟩ := ih (by simp)
        (fun q hq => hgood q (List.mem_cons_of_mem _ hq))
      refine ⟨c, r2 ++ ' ' :: w.reverse, ?_, hc⟩
      show (w ++ ' ' :: spaceJoin (w2 :: rest2)).reverse = _
      rw [List.reverse_append, List.reverse_cons, hr]
      simp

theorem spaceJoin_dropWhile : ∀ (ws : List (List Char)),
    (∀ w ∈ ws, w ≠ [] ∧ ∀ c ∈ w, pyIsSpace c = false) →
    (spaceJoin ws).dropWhile pyIsSpace = spaceJoin ws := by
  intro ws hgood
  rcases ws with _ | ⟨w, rest⟩
  · rfl
  · have hw := hgood w (List.mem_cons_self _ _)
    rcases hwl : w with _ | ⟨c, w2⟩
    · exact absurd rfl (hwl ▸ hw.1)
    · have hc : pyIsSpace c = false := hw.2 c (by rw [hwl]; exact List.mem_cons_self _ _)
      rcases rest with _ | ⟨x, rest2⟩
      · show (c :: w2).dropWhile pyIsSpace = c :: w2
        rw [List.dropWhile_cons, hc]
        simp
      · show ((c :: w2) ++ ' ' :: spaceJoin (x :: rest2)).dropWhile pyIsSpace = _
        rw [List.cons_append, List.dropWhile_cons, hc]
        simp [spaceJoin]

theorem pyStripChars_spaceJoin (ws : List (List Char))
    (hgood : ∀ w ∈ ws, w ≠ [] ∧ ∀ c ∈ w, pyIsSpace c = false) :
    pyStripChars (spaceJoin ws) = spaceJoin ws := by
  unfold pyStripChars
  rw [spaceJoin_dropWhile ws hgood]
  rcases eq_or_ne ws [] with rfl | hne
  · rfl
  · obtain ⟨c, rest, hr, hc⟩ := spaceJoin_reverse_head ws hne hgood
    rw [hr, List.dropWhile_cons, hc]
    simp only [Bool.false_eq_true, if_false]
    rw [← hr, List.reverse_reverse]

theorem truncAt_id (d : List Char) : ∀ (l : List Char),
    isInfixB d l = false → truncAt d l = l := by
  intro l
  induction l with
  | nil => intro _; rfl
  | cons c cs ih =>
    intro h
    unfold isInfixB at h
    rcases Bool.or_eq_false_iff.mp h with ⟨h1, h2⟩
    unfold truncAt
    rw [h1]
    simp only [Bool.false_eq_true, if_false]
    rw [ih h2]

theorem isInfixB_mem (d : List Char) : ∀ (l : List Char) (c : Char),
    isInfixB d l = true → c ∈ d → c ∈ l := by
  intro l
  induction l with
  | nil =>
    intro c h hc
    unfold isInfixB at h
    rcases d with _ | _
    · exact absurd hc (List.not_mem_nil c)
    · simp [List.isEmpty] at h
  | cons x xs ih =>
    intro c h hc
    unfold isInfixB at h
    rcases Bool.or_eq_true_iff.mp h with h1 | h2
    · exact (List.isPrefixOf_iff_prefix.mp h1).sublist.mem hc
    · exact List.mem_cons_of_mem _ (ih c h2 hc)

theorem isInfixB_false_of_not_mem (d l : List Char) (c : Char)
    (hc : c ∈ d) (hl : c ∉ l) : isInfixB d l = false := by
  cases h : isInfixB d l
  · rfl
  · exact absurd (isInfixB_mem d l c h hc) hl

theorem subScanF_id (m : List Char → Option Nat) (ch : Char)
    (hm : ∀ c cs, c ≠ ch → m (c :: cs) = none) :
    ∀ (fuel : Nat) (l : List Char), ch ∉ l → subScanF m fuel l = l := by
  intro fuel
  induction fuel with
  | zero =>
    intro l _
    rcases l with _ | ⟨c, cs⟩ <;> rfl
  | succ fuel ih =>
    intro l hl
    rcases l with _ | ⟨c, cs⟩
    · rfl
    · have hc : c ≠ ch := fun he => hl (he ▸ List.mem_cons_self _ _)
      show subScanF m (fuel + 1) (c :: cs) = c :: cs
      unfold subScanF
      rw [hm c cs hc]
      rw [ih cs (fun hx => hl (List.mem_cons_of_mem _ hx))]

theorem matchParen_none (c : Char) (cs : List Char) (hc : c ≠ '(') :
    matchParen (c :: cs) = none := by
  unfold matchParen
  dsimp only
  rw [if_neg hc]

theorem matchBracket_none (c : Char) (cs : List Char) (hc : c ≠ '[') :
    matchBracket (c :: cs) = none := by
  unfold matchBracket
  dsimp only
  rw [if_neg hc]

theorem clean_job_title_shape (s t : String) (h : clean_job_title s = some t) :
    ∃ ws, (∀ w ∈ ws, w ≠ [] ∧ ∀ c ∈ w, pyIsSpace c = false) ∧
      t.toList = spaceJoin ws ∧ spaceJoin ws ≠ [] := by
  unfold clean_job_title at h
  dsimp only at h
  by_cases h1 : (pyStripChars s.toList).isEmpty = true
  · rw [if_pos h1] at h
    exact Option.noConfusion h
  · rw [if_neg h1] at h
    by_cases h2 : (collapseWS (subScan matchBracket (subScan matchParen
        (truncAt "|".toList (truncAt " |".toList
          (truncAt " at ".toList (pyStripChars s.toList))))))).isEmpty = true
    · rw [if_pos h2] at h
      exact Option.noConfusion h
    · rw [if_neg h2] at h
      have ht : t = String.mk (collapseWS
          (subScan matchBracket (subScan matchParen
            (truncAt "|".toList (truncAt " |".toList
              (truncAt " at ".toList (pyStripChars s.toList))))))) :=
        (Option.some.inj h).symm
      refine ⟨pyWords (subScan matchBracket (subScan matchParen
          (truncAt "|".toList (truncAt " |".toList
            (truncAt " at ".toList (pyStripChars s.toList)))))), ?_, ?_, ?_⟩
      · exact fun w hw => pyWordsGo_good _ [] (by simp) w hw
      · rw [ht]
        rfl
      · intro hemp
        have hemp2 : (collapseWS (subScan matchBracket (subScan matchParen
            (truncAt "|".toList (truncAt " |".toList
              (truncAt " at ".toList (pyStripChars s.toList))))))).isEmpty = true := by
          rw [List.isEmpty_iff]
          exact hemp
        exact h2 hemp2

/-- C9 (amended): `clean_job_title` is idempotent on every title whose
cleaned form contains none of the truncation delimiters or grouping
characters; in general a parenthetical or bracket removal can expose a
fresh `" at "` and a second application truncates further (see the
counterexample). -/
theorem clean_job_title_conditional_idem (s t : String)
    (hc : clean_job_title s = some t)
    (h1 : isInfixB " at ".toList t.toList = false)
    (h2 : t.toList.contains '|' = false)
    (h3 : t.toList.contains '(' = false)
    (h4 : t.toList.contains '[' = false) :
    clean_job_title t = some t := by
  obtain ⟨ws, hgood, hts, hne⟩ := clean_job_title_shape s t hc
  have hmem2 : ('|' : Char) ∉ t.toList := by simp [List.contains] at h2; exact h2
  have hmem3 : ('(' : Char) ∉ t.toList := by simp [List.contains] at h3; exact h3
  have hmem4 : ('[' : Char) ∉ t.toList := by simp [List.contains] at h4; exact h4
  unfold clean_job_title
  rw [hts] at h1 hmem2 hmem3 hmem4 ⊢
  dsimp only
  rw [pyStripChars_spaceJoin ws hgood]
  rw [if_neg (by simpa [List.isEmpty_iff] using hne)]
  rw [truncAt_id _ _ h1]
  rw [truncAt_id _ _ (isInfixB_false_of_not_mem _ _ '|' (by decide) hmem2)]
  rw [truncAt_id _ _ (isInfixB_false_of_not_mem _ _ '|' (by decide) hmem2)]
  have hp : subScan matchParen (spaceJoin ws) = spaceJoin ws :=
    subScanF_id matchParen '(' (fun c cs => matchParen_none c cs) _ _ hmem3
  rw [hp]
  have hb : subScan matchBracket (spaceJoin ws) = spaceJoin ws :=
    subScanF_id matchBracket '[' (fun c cs => matchBracket_none c cs) _ _ hmem4
  rw [hb]
  have hcw : collapseWS (spaceJoin ws) = spaceJoin ws := by
    show spaceJoin (pyWords (spaceJoin ws)) = spaceJoin ws
    rw [pyWords_spaceJoin ws hgood]
  rw [hcw]
  rw [if_neg (by simpa [List.isEmpty_iff] using hne)]
  rw [← hts]
  rfl

/-- C1: hard-negative override — two candidates that both carry a
non-null `rolodex_id` whose string forms differ are never placed in the
same identity group by `find_matches`, whatever the other fields say and
whatever other candidates are present (chains included). -/
theorem hard_negative_override (records : List PyDict) (i j : Nat)
    (hi : i < records.length) (hj : j < records.length)
    (h1 : isNull (dictGet (recAt records i) "rolodex_id") = false)
    (h2 : isNull (dictGet (recAt records j) "rolodex_id") = false)
    (hne : pyStr (dictGet (recAt records i) "rolodex_id")
      ≠ pyStr (dictGet (recAt records j) "rolodex_id")) :
    ∀ g ∈ findMatchesIdx records, ¬(i ∈ g ∧ j ∈ g) := by
  intro g hg ⟨hig, hjg⟩
  have hch : Chained records i j :=
    (same_group_iff_chained hi hj).mp ⟨g, hg, hig, hjg⟩
  rcases chained_collapse hch with rfl | hm
  · exact hne rfl
  · rw [matchStep, simple_person_match_eq] at hm
    simp only [Bool.and_eq_true, beq_iff_eq] at hm
    exact hne hm.2

theorem hard_negative_override_witness :
    0 < ([personShahA, personShahB] : List PyDict).length ∧
    1 < ([personShahA, personShahB] : List PyDict).length ∧
    isNull (dictGet (recAt [personShahA, personShahB] 0) "rolodex_id") = false ∧
    isNull (dictGet (recAt [personShahA, personShahB] 1) "rolodex_id") = false ∧
    pyStr (dictGet (recAt [personShahA, personShahB] 0) "rolodex_id")
      ≠ pyStr (dictGet (recAt [personShahA, personShahB] 1) "rolodex_id") ∧
    ([0] : List Nat) ∈ findMatchesIdx [personShahA, personShahB] ∧
    ¬(0 ∈ ([0] : List Nat) ∧ 1 ∈ ([0] : List Nat)) :=
  ⟨by decide, by decide, by decide, by decide, by decide, by decide,
    hard_negative_override [personShahA, personShahB] 0 1 (by decide) (by decide)
      (by decide) (by decide) (by decide) [0] (by decide)⟩

/-- C2 (amended): the personnel `find_matches` returns a partition into
nonempty groups in which two candidates share a group exactly when they
are connected by a chain of pairwise matches; the company matcher used
inside `chain_merge` is a greedy first-match alignment for which this
contract fails (see the counterexample). -/
theorem personnel_partition_chained (records : List PyDict) :
    (∀ g ∈ findMatchesIdx records, g ≠ []) ∧
    (∀ i, i < records.length → ∃ g ∈ findMatchesIdx records, i ∈ g) ∧
    (∀ g1 ∈ findMatchesIdx records, ∀ g2 ∈ findMatchesIdx records,
      ∀ x, x ∈ g1 → x ∈ g2 → g1 = g2) ∧
    (∀ i j, i < records.length → j < records.length →
      ((∃ g ∈ findMatchesIdx records, i ∈ g ∧ j ∈ g) ↔ Chained records i j)) := by
  refine ⟨?_, ?_, ?_, ?_⟩
  · intro g hg
    obtain ⟨m, hm, _, rfl⟩ := mem_findMatchesIdx_iff.mp hg
    intro hemp
    have := self_mem_reachSet hm
    rw [hemp] at this
    exact absurd this (List.not_mem_nil m)
  · intro i hi
    obtain ⟨g, hg, hig, _⟩ := exists_group_mem hi
    exact ⟨g, hg, hig⟩
  · intro g1 h1 g2 h2 x hx1 hx2
    exact group_unique h1 h2 hx1 hx2
  · intro i j hi hj
    exact same_group_iff_chained hi hj

theorem personnel_partition_chained_witness :
    0 < ([personShahA, personShahC] : List PyDict).length ∧
    1 < ([personShahA, personShahC] : List PyDict).length ∧
    Chained [personShahA, personShahC] 0 1 :=
  ⟨by decide, by decide,
    ((personnel_partition_chained [personShahA, personShahC]).2.2.2 0 1
      (by decide) (by decide)).mp ⟨[0, 1], by decide, by decide, by decide⟩⟩

/-- C2 (counterexample): three companies that all match pairwise, yet
the greedy matching inside `chain_merge` links only the first pair and
produces two merged records where the claimed transitive-closure
partition would produce one group. -/
theorem company_matching_not_transitive :
    exact_normalized_company_match companyA companyB = true ∧
    exact_normalized_company_match companyA2 companyB = true ∧
    exact_normalized_company_match companyA companyA2 = true ∧
    Companies.find_matches [companyA, companyA2] [companyB]
      exact_normalized_company_match = [(0, 0)] ∧
    (Companies.chain_merge
      [("ColourcoatsBigin", [companyA, companyA2]), ("MetaliaBigin", [companyB])]
      companyIdKeys).length = 2 := by
  refine ⟨by decide, by decide, by decide, by decide, by decide⟩

/-- C10: `simple_person_match` is exactly the test that both records
carry a truthy `rolodex_id` with equal string forms; no other field can
influence the outcome, and an integer and a string identifier with the
same digits are the same identifier. -/
theorem simple_person_match_characterization :
    (∀ rec1 rec2 : PyDict,
      simple_person_match rec1 rec2 =
        (pyTruthy (dictGet rec1 "rolodex_id")
          && pyTruthy (dictGet rec2 "rolodex_id")
          && (pyStr (dictGet rec1 "rolodex_id")
            == pyStr (dictGet rec2 "rolodex_id")))) ∧
    simple_person_match [("rolodex_id", JVal.vint 55)]
      [("rolodex_id", JVal.vstr "55")] = true :=
  ⟨simple_person_match_eq, by decide⟩

/-- C3 (counterexample): merging an array field whose incoming list
repeats an element not yet present keeps the repetition — the merged
`all_emails` is not the duplicate-free union the claim states. -/
theorem merge_array_keeps_duplicates :
    strListOf (dictGet (Personnel.merge_records [personEmailsA, personEmailsB]
        emailMapper) "all_emails")
      = ["a@x.com", "b@x.com", "b@x.com"] ∧
    ¬ (["a@x.com", "b@x.com", "b@x.com"] : List String).Nodup := by
  refine ⟨by decide, by decide⟩

theorem merge_records_field_policy_witness :
    2 ≤ ([personEmailsA, personEmailsB] : List PyDict).length ∧
    ("city" : String) ≠ "person_id" ∧
    ("city" : String) ≠ "data_source" ∧
    (([personEmailsA, personEmailsB] : List PyDict).all
      (fun r => (r.map Prod.fst).Nodup)) = true ∧
    dictFind (Personnel.merge_records [personEmailsA, personEmailsB] emailMapper)
      "city" = some (JVal.vstr "Mumbai") :=
  ⟨by decide, by decide, by decide, by decide,
    (merge_records_field_policy [personEmailsA, personEmailsB] emailMapper "city"
      (by decide) (by decide) (by decide) (by decide)).trans (by rfl)⟩

/-- C4 (counterexample): the companies `merge_records` concatenates the
source labels in argument order; with `rec1` from Rolodex the result is
not the lexicographically sorted join the claim states. -/
theorem company_data_source_unsorted :
    pyStr (dictGet (Companies.merge_records
        [("data_source", JVal.vstr "Rolodex")]
        [("data_source", JVal.vstr "ColourcoatsBigin")] []) "data_source")
      = "Rolodex+ColourcoatsBigin" ∧
    joinPlus (sortedDedup ["Rolodex", "ColourcoatsBigin"])
      = "ColourcoatsBigin+Rolodex" ∧
    ("Rolodex+ColourcoatsBigin" : String) ≠ "ColourcoatsBigin+Rolodex" := by
  refine ⟨by decide, by decide, by decide⟩

theorem data_source_union_amended_witness :
    ([personEmailsA, personEmailsB] : List PyDict) ≠ [] ∧
    (([personEmailsA, personEmailsB] : List PyDict).all isStrDS) = true ∧
    dictFind (Personnel.merge_records [personEmailsA, personEmailsB] emailMapper)
      "data_source" = some (JVal.vstr "MetaliaBigin+Rolodex") :=
  ⟨by simp, by decide,
    (data_source_union_amended.2.1 [personEmailsA, personEmailsB] emailMapper
      (by simp) (by decide)).trans (by rfl)⟩

/-- C5 (counterexample): a missing name-processing configuration does
not abort the run — `load_config` silently substitutes its non-empty
built-in default and `main` proceeds to record processing whenever the
mapper is in place. -/
theorem config_absence_not_fatal :
    load_config LoadOutcome.missing = Except.ok default_name_config ∧
    default_name_config ≠ [] ∧
    mainProcessesRecords LoadOutcome.missing (LoadOutcome.present sampleMapper)
      = true :=
  ⟨rfl, by simp [default_name_config], rfl⟩

/-- C5 (amended): a missing or malformed field-mapping configuration
aborts before any record is processed, and a malformed name-processing
configuration aborts through the uncaught parse error; but a missing
name-processing configuration is silently replaced by the built-in
default and the run continues. -/
theorem config_loading_amended :
    (∀ cf, mainProcessesRecords cf LoadOutcome.missing = false) ∧
    (∀ cf, mainProcessesRecords cf LoadOutcome.malformed = false) ∧
    (∀ mf, mainProcessesRecords LoadOutcome.malformed mf = false) ∧
    load_config LoadOutcome.missing = Except.ok default_name_config ∧
    mainProcessesRecords LoadOutcome.missing (LoadOutcome.present sampleMapper)
      = true := by
  refine ⟨?_, ?_, ?_, rfl, rfl⟩
  · intro cf; cases cf <;> rfl
  · intro cf; cases cf <;> rfl
  · intro mf; rfl

/-- C6: `normalize_phone` returns None or the E.164 form of a number the
library judged valid — never the raw string on invalid input, and never
an exception (the embedding is total; the source catches
NumberParseException). The spec round-trip examples hold on the library
behavior fixed by the spec. -/
theorem normalize_phone_spec :
    (∀ (P : Type) (lib : PhoneLib P) (phone : String) (country : Option String)
      (config : Option PyDict),
      normalize_phone lib phone country config = none ∨
        ∃ p, lib.is_valid_number p = true ∧
          normalize_phone lib phone country config = some (lib.format_E164 p)) ∧
    normalize_phone specPhoneLib "9876543210" (some "India") none
      = some "+919876543210" ∧
    normalize_phone specPhoneLib "not-a-number" none none = none := by
  refine ⟨?_, rfl, rfl⟩
  intro P lib phone country config
  unfold normalize_phone
  by_cases h1 : phone = ""
  · rw [if_pos h1]; left; rfl
  · rw [if_neg h1]
    by_cases h2 : pyStrip phone = ""
    · rw [if_pos h2]; left; rfl
    · rw [if_neg h2]
      dsimp only
      split
      · left; rfl
      · next parsed heq =>
        by_cases hv : lib.is_valid_number parsed = true
        · right
          exact ⟨parsed, hv, by rw [if_pos hv]⟩
        · left
          rw [if_neg hv]

/-- C7 (counterexample): two relationships with the same `person_id` and
the same `company_id` but differently spelled company names are not
collapsed — the dedup key is the full triple, not
"(person_id, company_id or company_name)". -/
theorem relationship_key_triple :
    pyEq (dictGet crel1 "person_id") (dictGet crel2 "person_id") = true ∧
    pyEq (dictGet crel1 "company_id") (dictGet crel2 "company_id") = true ∧
    (merge_company_relationships [crel1, crel2]).length = 2 := by
  refine ⟨by decide, by decide, by decide⟩

/-- C7 (amended): `merge_company_relationships` deduplicates under the
triple key `(person_id, company_id, company_name)`: no two output
records share a key, every output key comes from an input, every input
key is represented, and a later Rolodex duplicate donates its truthy
affiliation metadata to the missing fields of the kept record. -/
theorem relationship_key_amended :
    (∀ rels : List PyDict,
      ((merge_company_relationships rels).map relKey).Pairwise
        (fun a b => relKeyEq a b = false)) ∧
    (∀ rels : List PyDict, ∀ e ∈ merge_company_relationships rels,
      relKey e ∈ rels.map relKey) ∧
    (∀ rels : List PyDict, ∀ r ∈ rels,
      ∃ e ∈ merge_company_relationships rels,
        relKeyEq (relKey e) (relKey r) = true) ∧
    (∀ (e rel : PyDict) (f : String),
      f ∈ (["is_active", "start_date", "title_at_company"] : List String) →
      pyEq (dictGet rel "data_source") (JVal.vstr "Rolodex") = true →
      pyTruthy (dictGet rel f) = true → pyTruthy (dictGet e f) = false →
      dictFind (mergeRelInto e rel) f = some (dictGet rel f)) := by
  refine ⟨merge_company_relationships_pairwise,
    merge_company_relationships_keys_sub,
    merge_company_relationships_covers, ?_⟩
  intro e rel f hf hrol htr hfe
  unfold mergeRelInto
  rw [if_pos hrol]
  have hne : f ≠ "data_source" := by
    simp only [List.mem_cons, List.mem_singleton, List.not_mem_nil, or_false] at hf
    rcases hf with rfl | rfl | rfl <;> decide
  rw [dictFind_dictSet_other _ _ _ _ hne]
  exact relFill_fills rel _ e f (by decide) hf htr hfe

theorem relationship_key_amended_witness :
    ("start_date" : String) ∈
      (["is_active", "start_date", "title_at_company"] : List String) ∧
    pyEq (dictGet crel3 "data_source") (JVal.vstr "Rolodex") = true ∧
    pyTruthy (dictGet crel3 "start_date") = true ∧
    pyTruthy (dictGet crel2 "start_date") = false ∧
    dictFind (mergeRelInto crel2 crel3) "start_date"
      = some (dictGet crel3 "start_date") :=
  ⟨by decide, by decide, by decide, by decide,
    relationship_key_amended.2.2.2 crel2 crel3 "start_date"
      (by decide) (by decide) (by decide) (by decide)⟩

/-- C8 (counterexample): the split operator returns the selected token
verbatim, bypassing the final empty-to-None rule — an empty middle token
comes back as the empty string, not None. -/
theorem split_token_empty_not_null :
    safe_get_value splitRecord "loc.split(\x27, \x27)[1]" = JVal.vstr "" ∧
    isNull (safe_get_value splitRecord "loc.split(\x27, \x27)[1]") = false ∧
    isNoneEmpty (safe_get_value splitRecord "loc.split(\x27, \x27)[1]") = true := by
  refine ⟨by rfl, by decide, by decide⟩

/-- The tail of the wildcard branch: an empty collection is None, a
non-empty one is a non-empty list value. -/
theorem ifEmpty_result (res : List JVal) :
    (if res.isEmpty = true then JVal.vnull else JVal.vlist res) = JVal.vnull ∨
    isNoneEmpty (if res.isEmpty = true then JVal.vnull else JVal.vlist res)
      = false := by
  by_cases h : res.isEmpty = true
  · rw [if_pos h]; left; rfl
  · rw [if_neg h]
    right
    simp only [isNoneEmpty]
    revert h
    cases res.isEmpty <;> simp

/-- C8 (amended): `safe_get_value` never raises (it is total) and, for
every path that does not use the `.split` operator, returns None or a
non-empty value — absent segments, wrong shapes, out-of-range indexes
and empty resolved values all come back as None; only the split branch
can return an empty string token. -/
theorem safe_get_value_amended (record : JVal) (path : String)
    (hs : isInfixB ".split".toList path.toList = false) :
    safe_get_value record path = JVal.vnull ∨
      isNoneEmpty (safe_get_value record path) = false := by
  unfold safe_get_value safe_get_value_fuel
  by_cases h1 : (path.toList.isEmpty || !pyTruthy record) = true
  · rw [if_pos h1]; left; rfl
  · rw [if_neg h1]
    by_cases h2 : isInfixB "[*]".toList path.toList = true
    · rw [if_pos h2]
      dsimp only
      split
      · left; rfl
      · split
        · exact ifEmpty_result _
        · left; rfl
    · rw [if_neg h2]
      rw [if_neg (by rw [hs]; exact Bool.false_ne_true)]
      unfold stdNavResult
      split
      · left; rfl
      · next cur heq =>
        by_cases he : isNoneEmpty cur = true
        · rw [if_pos he]; left; rfl
        · rw [if_neg he]
          right
          revert he
          cases isNoneEmpty cur <;> simp

theorem safe_get_value_amended_witness :
    isInfixB ".split".toList ("a.b[0]" : String).toList = false ∧
    (safe_get_value navRecord "a.b[0]" = JVal.vnull ∨
      isNoneEmpty (safe_get_value navRecord "a.b[0]") = false) :=
  ⟨by decide, safe_get_value_amended navRecord "a.b[0]" (by decide)⟩

/-- C9 (counterexample): removing a parenthetical can expose a fresh
`" at "` delimiter, so a second application truncates further —
`clean_job_title` is not idempotent. -/
theorem clean_job_title_not_idempotent :
    clean_job_title "x a(q)t y" = some "x at y" ∧
    clean_job_title "x at y" = some "x" ∧
    (some "x" : Option String) ≠ some "x at y" := by
  refine ⟨by rfl, by rfl, by decide⟩

theorem clean_job_title_conditional_idem_witness :
    clean_job_title "Senior  Engineer" = some "Senior Engineer" ∧
    isInfixB " at ".toList ("Senior Engineer" : String).toList = false ∧
    ("Senior Engineer" : String).toList.contains '|' = false ∧
    ("Senior Engineer" : String).toList.contains '(' = false ∧
    ("Senior Engineer" : String).toList.contains '[' = false ∧
    clean_job_title "Senior Engineer" = some "Senior Engineer" :=
  ⟨by rfl, by decide, by decide, by decide, by decide,
    clean_job_title_conditional_idem "Senior  Engineer" "Senior Engineer"
      (by rfl) (by decide) (by decide) (by decide) (by decide)⟩
